import Mathlib

/-!
# Sludge archiver: a verification development over `sludge.c`

The C program is embedded function by function.  The environment it runs in is
made explicit:

* An LP64 little-endian host: `size_t` and `long` are 64 bits wide, `int` is 32
  bits wide, and a `size_t` is stored least significant byte first.
* A stdio stream (`FILE`) is the byte content of its file, a file position and
  the append flag of its open mode.  `fread` delivers the bytes between the
  position and the end of the data.  `fseek` may move the position beyond the
  end of the data (as POSIX allows), up to the largest offset `lim` that the
  file system of the archive accepts; it fails for a target that is negative,
  that an `off_t` cannot hold, or that lies beyond both the end of the data
  and `lim`.  The functions that seek take `lim` as an argument.  A stream
  opened with `a+` starts reading at offset 0 (as with glibc), writes at the
  end of the data and is positioned there after a write.
* Writes, `strdup` and `realloc` of a positive size always succeed.  A
  `realloc` of size 0, which `read_header` asks for when `name_len + 1` wraps
  around, gives no block that may be written to: what the program does from
  there on is undefined, and `read_header` has no result (`none`).
* The member files live in a directory `FS`: a map from names to contents,
  together with the names under which the directory lets a file be created
  (`fopen(name, "w")` fails for every other name, and for the empty name).
  The archive file is kept apart from it.
* Every loop that the C code may run forever takes a `fuel` argument; the
  result `none` stands for a call without result: a loop that is still running
  when the fuel is used up, or undefined behaviour met on the way.
* Messages on `stderr` and the progress messages of extraction are not part of
  the model; the listing printed by `list_files` is.
-/

namespace Sludge

abbrev Byte := Fin 256

/-! ## Machine integers -/

def EXIT_SUCCESS : Int := 0

def EXIT_FAILURE : Int := 1

/-- The value of `sizeof(size_t)`. -/
def SIZEOF_SIZE_T : Nat := 8

/-- The value of `sizeof(buf)` in `read_write`. -/
def SIZEOF_BUF : Nat := 1024

/-- Conversion of a signed value to `size_t` (reduction modulo `2^64`). -/
def to_size_t (z : Int) : Nat := (z % 2 ^ 64).toNat

/-- Conversion of a `size_t` to `long` (two's complement, 64 bits). -/
def to_long (n : Nat) : Int :=
  if n % 2 ^ 64 < 2 ^ 63 then ((n % 2 ^ 64 : Nat) : Int) else ((n % 2 ^ 64 : Nat) : Int) - 2 ^ 64

/-- Conversion of a wider integer to `int` (two's complement, 32 bits). -/
def to_int (z : Int) : Int :=
  if z % 2 ^ 32 < 2 ^ 31 then z % 2 ^ 32 else z % 2 ^ 32 - 2 ^ 32

/-- The `k` low bytes of `n`, least significant first. -/
def le_bytes : Nat → Nat → List Byte
  | 0, _ => []
  | k + 1, n => Fin.ofNat (n % 256) :: le_bytes k (n / 256)

/-- The number stored least significant byte first in `bs`. -/
def le_value : List Byte → Nat
  | [] => 0
  | b :: bs => b.val + 256 * le_value bs

/-- The object representation of a `size_t`. -/
def size_t_bytes (n : Nat) : List Byte := le_bytes SIZEOF_SIZE_T n

/-! ## C strings -/

/-- The C string held in a buffer: the bytes before the first NUL. -/
def cstr (s : List Byte) : List Byte := s.takeWhile (fun b => b ≠ 0)

def strlen (s : List Byte) : Nat := (cstr s).length

/-- Byte-wise comparison up to the first NUL; the end of the list is the
terminator of the buffer. -/
def strcmp : List Byte → List Byte → Int
  | [], [] => 0
  | [], b :: _ => - (b.val : Int)
  | a :: _, [] => (a.val : Int)
  | a :: as, b :: bs => if a = 0 ∨ a ≠ b then (a.val : Int) - (b.val : Int) else strcmp as bs

/-- The bytes of an ASCII literal. -/
def ascii (s : String) : List Byte := s.toList.map (fun c => Fin.ofNat c.toNat)

/-! ## Streams -/

structure FILE where
  data : List Byte
  pos : Nat
  append : Bool
deriving DecidableEq

inductive Whence where
  | SEEK_SET
  | SEEK_CUR
deriving DecidableEq

/-- Call `fread(buf, 1, n, fp)`: the bytes delivered and the stream afterwards. -/
def fread (fp : FILE) (n : Nat) : List Byte × FILE :=
  let got := (fp.data.drop fp.pos).take n
  (got, { fp with pos := fp.pos + got.length })

/-- Call `fwrite(buf, 1, |buf|, fp)`: the count written and the stream afterwards. -/
def fwrite (fp : FILE) (buf : List Byte) : Nat × FILE :=
  let p := if fp.append then fp.data.length else fp.pos
  let d := fp.data.take p ++ List.replicate (p - fp.data.length) 0 ++ buf
    ++ fp.data.drop (p + buf.length)
  (buf.length, { fp with data := d, pos := p + buf.length })

/-- Call `fseek(fp, off, w)` on a file system whose largest file offset is
`lim`: an offset within the file is always accepted, one beyond its end is
accepted up to `lim`. -/
def fseek (lim : Nat) (fp : FILE) (off : Int) (w : Whence) : Int × FILE :=
  let target : Int :=
    match w with
    | .SEEK_SET => off
    | .SEEK_CUR => (fp.pos : Int) + off
  if target < 0 ∨ 2 ^ 63 ≤ target ∨ ((fp.data.length : Int) < target ∧ (lim : Int) < target) then
    (-1, fp)
  else (0, { fp with pos := target.toNat })

def ftell (fp : FILE) : Int := (fp.pos : Int)

/-! ## The directory of member files -/

/-- A directory: the content of each file in it, and the names under which it
lets a file be created or truncated by `fopen(name, "w")`. -/
structure FS where
  files : List Byte → Option (List Byte)
  creatable : List Byte → Bool

instance : CoeFun FS (fun _ => List Byte → Option (List Byte)) := ⟨FS.files⟩

/-- A plain file name, the name of an entry of the directory itself: not empty,
without `/`, neither `.` nor `..`, at most 255 bytes long. -/
def plain_name (n : List Byte) : Bool :=
  decide (n ≠ [] ∧ (47 : Byte) ∉ n ∧ n ≠ [46] ∧ n ≠ [46, 46] ∧ n.length ≤ 255)

/-- An empty directory: it holds no file and no subdirectory, and a file can
be created in it under a plain name only. -/
def FS.empty : FS := { files := fun _ => none, creatable := plain_name }

def FS.write (fs : FS) (name : List Byte) (content : List Byte) : FS :=
  { fs with files := fun n => if n = name then some content else fs.files n }

def access (fs : FS) (filename : List Byte) : Int :=
  if (fs (cstr filename)).isSome then 0 else -1

/-- Call `stat`: the `st_size` of the file, when it exists. -/
def stat (fs : FS) (filename : List Byte) : Option Nat :=
  (fs (cstr filename)).map List.length

/-- Call `fopen(filename, "r")`. -/
def fopen_r (fs : FS) (filename : List Byte) : Option FILE :=
  (fs (cstr filename)).map (fun d => { data := d, pos := 0, append := false })

/-- Whether `fopen(name, "w")` succeeds in the directory: never for the empty
name, otherwise when the directory lets a file of that name be created. -/
def FS.can_create (fs : FS) (name : List Byte) : Bool :=
  decide (name ≠ []) && fs.creatable name

/-- Call `fopen(filename, "w")`: the file is created or truncated, unless no
file can be created under that name. -/
def fopen_w (fs : FS) (filename : List Byte) : Option (FS × FILE) :=
  if fs.can_create (cstr filename) = true then
    some (fs.write (cstr filename) [], { data := [], pos := 0, append := false })
  else none

/-- Closing a stream opened for writing on `filename` flushes its content. -/
def fclose_w (fs : FS) (filename : List Byte) (fp : FILE) : FS :=
  fs.write (cstr filename) fp.data

/-- Call `fopen(archive_name, "r")` on the archive file. -/
def fopen_archive_r (archive : Option (List Byte)) : Option FILE :=
  archive.map (fun d => { data := d, pos := 0, append := false })

/-- Call `fopen(archive_name, "a+")` on the archive file, created when absent. -/
def fopen_archive_a (archive : Option (List Byte)) : Option FILE :=
  some { data := archive.getD [], pos := 0, append := true }

/-! ## The program -/

structure header where
  name_len : Nat
  name : List Byte
  file_size : Nat
deriving DecidableEq

/-- Function `read_header`; a failed call leaves `hdr` as it was (no caller
reads it then).  The buffer for the name is asked for with
`realloc(hdr->name, hdr->name_len + 1)`: when that size wraps around to 0 the
name has no block to be read into, and the call has no defined result. -/
def read_header (fp : FILE) (hdr : header) : Option (Int × header × FILE) :=
  let (lenb, fp1) := fread fp SIZEOF_SIZE_T
  if lenb.length ≠ SIZEOF_SIZE_T then some (-1, hdr, fp1)
  else
    let name_len := le_value lenb
    if (name_len + 1) % 2 ^ 64 = 0 then none
    else
      let (name, fp2) := fread fp1 name_len
      if name.length ≠ name_len then some (-1, hdr, fp2)
      else
        let (sizeb, fp3) := fread fp2 SIZEOF_SIZE_T
        if sizeb.length ≠ SIZEOF_SIZE_T then some (-1, hdr, fp3)
        else some (0, { name_len := name_len, name := name, file_size := le_value sizeb }, fp3)

/-- The line `printf("%s of size %lu\n", hdr.name, hdr.file_size)`. -/
def list_line (hdr : header) : List Byte :=
  cstr hdr.name ++ ascii " of size " ++ ascii (Nat.repr hdr.file_size) ++ ascii "\n"

/-- The `while` loop of `list_files`: exit status and what was printed. -/
def list_files_loop (lim : Nat) : Nat → FILE → header → List Byte → Option (Int × List Byte)
  | 0, _, _, _ => none
  | fuel + 1, farc, hdr, out =>
    match read_header farc hdr with
    | none => none
    | some (r, hdr1, f1) =>
      if r = 0 then
        let out1 := out ++ list_line hdr1
        match fseek lim f1 (to_long hdr1.file_size) .SEEK_CUR with
        | (s, f2) =>
          if s = -1 then some (EXIT_FAILURE, out1)
          else list_files_loop lim fuel f2 hdr1 out1
      else some (EXIT_SUCCESS, out)

/-- Function `list_files`: the exit status and what was printed. -/
def list_files (lim fuel : Nat) (archive : Option (List Byte)) : Option (Int × List Byte) :=
  match fopen_archive_r archive with
  | none => some (EXIT_FAILURE, [])
  | some farc => list_files_loop lim fuel farc { name_len := 0, name := [], file_size := 0 } []

/-- The `while` loop of `read_write`, from the current value of `written`. -/
def read_write_loop : Nat → FILE → FILE → Nat → Nat → Option (Int × FILE × FILE)
  | 0, _, _, _, _ => none
  | fuel + 1, A, B, bytes, written =>
    if written < bytes then
      let want := if bytes - written > SIZEOF_BUF then SIZEOF_BUF else bytes - written
      match fread A want with
      | (buf, A1) =>
        -- `nread < 0` never holds for a `size_t`: that branch is dead
        let nread := buf.length
        match fwrite B buf with
        | (nw, B1) =>
          if nw ≠ nread then some (to_int written, A1, B1)
          else read_write_loop fuel A1 B1 bytes (written + nread)
    else some (to_int written, A, B)

/-- Function `read_write`: the `int` returned and both streams afterwards. -/
def read_write (fuel : Nat) (A B : FILE) (bytes : Nat) : Option (Int × FILE × FILE) :=
  read_write_loop fuel A B bytes 0

/-- Function `append_file`: the value returned and the archive stream afterwards. -/
def append_file (fuel : Nat) (fs : FS) (farch : FILE) (filename : List Byte) :
    Option (Int × FILE) :=
  match stat fs filename with
  | none => some (-1, farch)
  | some st_size =>
    match fopen_r fs filename with
    | none => some (-1, farch)
    | some fp =>
      let name := cstr filename
      let name_len := strlen filename
      let file_size := to_size_t (st_size : Int)
      match fwrite farch (size_t_bytes name_len) with
      | (n1, a1) =>
        if n1 ≠ SIZEOF_SIZE_T then some (-1, a1)
        else
          match fwrite a1 (name.take name_len) with
          | (n2, a2) =>
            if n2 ≠ name_len then some (-1, a2)
            else
              match fwrite a2 (size_t_bytes file_size) with
              | (n3, a3) =>
                if n3 ≠ SIZEOF_SIZE_T then some (-1, a3)
                else
                  match read_write fuel fp a3 file_size with
                  | none => none
                  | some (n, _, a4) =>
                    if to_size_t n ≠ file_size then some (-1, a4) else some (0, a4)

/-- Function `find_file`: the value returned, `hdr` and the stream afterwards. -/
def find_file (lim : Nat) : Nat → FILE → header → List Byte → Option (Int × header × FILE)
  | 0, _, _, _ => none
  | fuel + 1, farc, hdr, filename =>
    match read_header farc hdr with
    | none => none
    | some (r, hdr1, f1) =>
      if r = 0 then
        if strcmp hdr1.name filename = 0 then some (to_int (ftell f1), hdr1, f1)
        else
          match fseek lim f1 (to_long hdr1.file_size) .SEEK_CUR with
          | (s, f2) =>
            if s = -1 then some (-1, hdr1, f2)
            else find_file lim fuel f2 hdr1 filename
      else some (0, hdr1, f1)

/-- The `for` loop of `append_files`. -/
def append_files_loop (lim fuel : Nat) (fs : FS) :
    List (List Byte) → FILE → header → Option (Int × FILE)
  | [], farc, _ => some (0, farc)
  | filename :: rest, farc, hdr =>
    if access fs filename = -1 then some (0, farc)
    else
      match find_file lim fuel farc hdr filename with
      | none => none
      | some (r, hdr1, f1) =>
        if r > 0 then some (EXIT_FAILURE, f1)
        else
          match append_file fuel fs f1 filename with
          | none => none
          | some (ra, f2) =>
            if ra < 0 then some (EXIT_FAILURE, f2)
            else append_files_loop lim fuel fs rest f2 hdr1

/-- Function `append_files`: the exit status and the bytes of the archive file
afterwards. -/
def append_files (lim fuel : Nat) (archive : Option (List Byte)) (fs : FS)
    (files : List (List Byte)) : Option (Int × List Byte) :=
  match fopen_archive_a archive with
  | none => some (EXIT_FAILURE, archive.getD [])
  | some farc =>
    match append_files_loop lim fuel fs files farc { name_len := 0, name := [], file_size := 0 } with
    | none => none
    | some (rc, f) => some (rc, f.data)

/-- The `for` loop of `extract_files`. -/
def extract_files_loop (lim fuel : Nat) :
    List (List Byte) → FILE → header → FS → Option (Int × FS)
  | [], _, _, fs => some (EXIT_SUCCESS, fs)
  | filename :: rest, farc, hdr, fs =>
    match find_file lim fuel farc hdr filename with
    | none => none
    | some (off, hdr1, f1) =>
      if off > 0 then
        match fopen_w fs filename with
        | none => some (EXIT_FAILURE, fs)
        | some (fs1, fp) =>
          match fseek lim f1 off .SEEK_SET with
          | (s, f2) =>
            if s = -1 then some (EXIT_FAILURE, fs1)
            else
              match read_write fuel f2 fp hdr1.file_size with
              | none => none
              | some (n, f3, fp1) =>
                if to_size_t n ≠ hdr1.file_size then
                  some (EXIT_FAILURE, fclose_w fs1 filename fp1)
                else extract_files_loop lim fuel rest f3 hdr1 (fclose_w fs1 filename fp1)
      else some (EXIT_FAILURE, fs)

/-- Function `extract_files`: the exit status and the directory afterwards. -/
def extract_files (lim fuel : Nat) (archive : Option (List Byte)) (fs : FS)
    (files : List (List Byte)) : Option (Int × FS) :=
  match fopen_archive_r archive with
  | none => some (EXIT_FAILURE, fs)
  | some farc =>
    extract_files_loop lim fuel files farc { name_len := 0, name := [], file_size := 0 } fs

/-- The `while` loop of `extract_all`; `rc` is the status so far. -/
def extract_all_loop : Nat → FILE → header → FS → Int → Option (Int × FS)
  | 0, _, _, _, _ => none
  | fuel + 1, farc, hdr, fs, rc =>
    match read_header farc hdr with
    | none => none
    | some (r, hdr1, f1) =>
      if r = 0 then
        match fopen_w fs hdr1.name with
        | none => some (EXIT_FAILURE, fs)
        | some (fs1, fp) =>
          match read_write fuel f1 fp hdr1.file_size with
          | none => none
          | some (n, f2, fp1) =>
            let rc1 := if to_size_t n ≠ hdr1.file_size then EXIT_FAILURE else rc
            extract_all_loop fuel f2 hdr1 (fclose_w fs1 hdr1.name fp1) rc1
      else some (rc, fs)

/-- Function `extract_all`: the exit status and the directory afterwards. -/
def extract_all (fuel : Nat) (archive : Option (List Byte)) (fs : FS) : Option (Int × FS) :=
  match fopen_archive_r archive with
  | none => some (EXIT_FAILURE, fs)
  | some farc =>
    extract_all_loop fuel farc { name_len := 0, name := [], file_size := 0 } fs EXIT_SUCCESS

/-! ## Archives as sequences of records -/

/-- One archived file: its name and its content. -/
structure Record where
  name : List Byte
  payload : List Byte
deriving DecidableEq

/-- The header that `append_file` writes for a name and a payload size. -/
def header_bytes (name : List Byte) (size : Nat) : List Byte :=
  size_t_bytes name.length ++ name ++ size_t_bytes size

def record_bytes (r : Record) : List Byte :=
  header_bytes r.name r.payload.length ++ r.payload

def archive_bytes : List Record → List Byte
  | [] => []
  | r :: rs => record_bytes r ++ archive_bytes rs

/-- A file name as the program receives it: no NUL byte inside, and short
enough for the name and its terminating NUL to lie in memory. -/
def CString (s : List Byte) : Prop := (0 : Byte) ∉ s ∧ s.length + 1 < 2 ^ 64

instance (s : List Byte) : Decidable (CString s) := by
  unfold CString
  exact inferInstance

/-- A well-formed archive: records laid out as `append_file` lays them out,
named by C strings, in a file whose size an `off_t` can hold. -/
def WellFormed (rs : List Record) : Prop :=
  (∀ r ∈ rs, CString r.name) ∧ (archive_bytes rs).length < 2 ^ 63

instance (rs : List Record) : Decidable (WellFormed rs) := by
  unfold WellFormed
  exact inferInstance

/-- The line of a listing that describes one record. -/
def record_line (r : Record) : List Byte :=
  r.name ++ ascii " of size " ++ ascii (Nat.repr r.payload.length) ++ ascii "\n"

/-- The listing of a sequence of records: one line for each, in order. -/
def listing (rs : List Record) : List Byte := (rs.map record_line).flatten

/-- The archives that successful calls of `append_file` build up from the empty
archive, together with the names and contents appended, in order. -/
inductive Appended : List Record → List Byte → Prop
  | empty : Appended [] []
  | step {rs : List Record} {arc : List Byte} (fuel : Nat) (fs : FS) (farch farch1 : FILE)
      (name content : List Byte) :
      Appended rs arc → farch.data = arc → farch.append = true →
      CString name → fs name = some content → content.length < 2 ^ 63 →
      append_file fuel fs farch name = some (0, farch1) →
      Appended (rs ++ [⟨name, content⟩]) farch1.data

/-- The header value decoded from a record. -/
def Record.hdr (r : Record) : header :=
  { name_len := r.name.length, name := r.name, file_size := r.payload.length }

/-- Loop iterations of `read_write` for `n` bytes that are all available. -/
def copy_steps (n : Nat) : Nat := (n + (SIZEOF_BUF - 1)) / SIZEOF_BUF + 1

/-- Two gibibytes of zero bytes. -/
def big_payload : List Byte := List.replicate (2 ^ 31) 0

/-- An archive of two records, `a` with payload `p` and `b` with no payload;
with `p := big_payload` the payload of `b` starts beyond offset `2^31`. -/
def big_archive (p : List Byte) : List Record := [⟨ascii "a", p⟩, ⟨ascii "b", []⟩]

/-- Four gibibytes of payload that hold, from their byte 17 on, the header of a
record named `c` with no payload. -/
def decoy_payload : List Byte :=
  List.replicate 17 0 ++ (header_bytes (ascii "c") 0 ++ List.replicate (2 ^ 32 - 34) 0)

/-- The loop of `read_write` once more, recording in `reqs` the count asked of
each `fread`; see `read_write_traced_fst`. -/
def read_write_traced :
    Nat → FILE → FILE → Nat → Nat → List Nat → Option ((Int × FILE × FILE) × List Nat)
  | 0, _, _, _, _, _ => none
  | fuel + 1, A, B, bytes, written, reqs =>
    if written < bytes then
      let want := if bytes - written > SIZEOF_BUF then SIZEOF_BUF else bytes - written
      match fread A want with
      | (buf, A1) =>
        let nread := buf.length
        match fwrite B buf with
        | (nw, B1) =>
          if nw ≠ nread then some ((to_int written, A1, B1), reqs ++ [want])
          else read_write_traced fuel A1 B1 bytes (written + nread) (reqs ++ [want])
    else some ((to_int written, A, B), reqs)

/-- The offset at which the payload of record `r` starts when the records
`pre` lie before it: their full lengths and the length of the header of `r`. -/
def payload_offset (pre : List Record) (r : Record) : Nat :=
  (pre.map (fun q => (record_bytes q).length)).sum
    + (header_bytes r.name r.payload.length).length

/-- Whether `find_file` for the name `t` stops at a header; a scan without a
name to look for (`list_files`) stops at none. -/
def name_matches (t : Option (List Byte)) (hdr : header) : Bool :=
  match t with
  | some name => decide (strcmp hdr.name name = 0)
  | none => false

/-- The scan of `list_files` (`t = none`) or of `find_file` for a name
(`t = some name`) once more, for at most `n` iterations, as a check of the
headers it decodes: none asks for a name buffer of the wrapped size 0
(`read_header` has a result), and none whose payload the scan skips declares a
payload size that is negative as a `long`. -/
def scan_sizes_ok (lim : Nat) (t : Option (List Byte)) : Nat → FILE → Bool
  | 0, _ => true
  | n + 1, farc =>
    match read_header farc { name_len := 0, name := [], file_size := 0 } with
    | none => false
    | some (r, hdr1, f1) =>
      if r = 0 then
        if name_matches t hdr1 = true then true
        else
          decide (hdr1.file_size < 2 ^ 63) &&
            (match fseek lim f1 (to_long hdr1.file_size) .SEEK_CUR with
            | (s, f2) => if s = -1 then true else scan_sizes_ok lim t n f2)
      else true

/-- A 16-byte archive: one header with an empty name whose payload size,
`2^64 - 16`, is -16 as a `long`. -/
def looping_archive : List Byte := header_bytes [] (2 ^ 64 - 16)

/-! ## Lemmas on the machine model -/

theorem le_bytes_length (k n : Nat) : (le_bytes k n).length = k := by
  induction k generalizing n with
  | zero => rfl
  | succ k ih => simp [le_bytes, ih]

theorem le_value_le_bytes (k n : Nat) : le_value (le_bytes k n) = n % 256 ^ k := by
  induction k generalizing n with
  | zero => simp [le_bytes, le_value, Nat.mod_one]
  | succ k ih =>
    simp only [le_bytes, le_value, ih]
    have h : (Fin.ofNat (n % 256) : Byte).val = n % 256 := by
      simp [Fin.ofNat]
    rw [h, pow_succ, Nat.mul_comm (256 ^ k) 256, Nat.mod_mul]

theorem size_t_bytes_length (n : Nat) : (size_t_bytes n).length = 8 := le_bytes_length _ _

theorem le_value_size_t_bytes (n : Nat) (h : n < 2 ^ 64) : le_value (size_t_bytes n) = n := by
  unfold size_t_bytes SIZEOF_SIZE_T
  rw [le_value_le_bytes]
  exact Nat.mod_eq_of_lt (by norm_num at h ⊢; exact h)

theorem cstr_eq_self (s : List Byte) (h : (0 : Byte) ∉ s) : cstr s = s := by
  unfold cstr
  rw [List.takeWhile_eq_self_iff]
  intro b hb
  simp only [ne_eq, decide_eq_true_eq]
  rintro rfl
  exact h hb

theorem strcmp_eq_zero_iff (a b : List Byte) : strcmp a b = 0 ↔ cstr a = cstr b := by
  induction a generalizing b with
  | nil =>
    cases b with
    | nil => simp [strcmp]
    | cons y ys =>
      by_cases hy : y = 0
      · subst hy; simp [strcmp, cstr]
      · have : (y.val : Int) ≠ 0 := by
          intro h; apply hy; apply Fin.ext; simpa using h
        simp [strcmp, cstr, hy, this]
  | cons x xs ih =>
    cases b with
    | nil =>
      by_cases hx : x = 0
      · subst hx; simp [strcmp, cstr]
      · have : (x.val : Int) ≠ 0 := by
          intro h; apply hx; apply Fin.ext; simpa using h
        simp [strcmp, cstr, hx, this]
    | cons y ys =>
      by_cases hx : x = 0
      · subst hx
        by_cases hy : y = 0
        · subst hy; simp [strcmp, cstr]
        · have : (y.val : Int) ≠ 0 := by
            intro h; apply hy; apply Fin.ext; simpa using h
          simp [strcmp, cstr, hy, this]
      · by_cases hxy : x = y
        · subst hxy
          have := ih ys
          simp [strcmp, cstr, hx] at this ⊢
          exact this
        · have hne : (x.val : Int) - (y.val : Int) ≠ 0 := by
            intro h; apply hxy; apply Fin.ext; omega
          by_cases hy : y = 0
          · subst hy; simp [strcmp, cstr, hx, hxy] ; simpa using hne
          · simp [strcmp, cstr, hx, hy, hxy]; simpa using hne



theorem fread_take (fp : FILE) (xs rest : List Byte) (n : Nat)
    (h : fp.data.drop fp.pos = xs ++ rest) (hn : n ≤ xs.length) :
    fread fp n = (xs.take n, { fp with pos := fp.pos + n }) := by
  unfold fread
  simp only [h]
  rw [List.take_append_of_le_length hn]
  simp [List.length_take, hn]

theorem fread_exact (fp : FILE) (xs rest : List Byte)
    (h : fp.data.drop fp.pos = xs ++ rest) :
    fread fp xs.length = (xs, { fp with pos := fp.pos + xs.length }) := by
  have := fread_take fp xs rest xs.length h le_rfl
  simpa using this

theorem drop_advance (l : List Byte) (p : Nat) (xs rest : List Byte)
    (h : l.drop p = xs ++ rest) : l.drop (p + xs.length) = rest := by
  rw [← List.drop_drop, h, List.drop_left]

theorem fwrite_at_end (fp : FILE) (buf : List Byte) (h : fp.pos = fp.data.length) :
    fwrite fp buf = (buf.length,
      { fp with data := fp.data ++ buf, pos := fp.data.length + buf.length }) := by
  unfold fwrite
  simp [h]

theorem fwrite_append (fp : FILE) (buf : List Byte) (h : fp.append = true) :
    fwrite fp buf = (buf.length,
      { fp with data := fp.data ++ buf, pos := fp.data.length + buf.length }) := by
  unfold fwrite
  simp [h]

theorem read_header_eof (fp : FILE) (hdr : header) (h : fp.data.drop fp.pos = []) :
    read_header fp hdr = some (-1, hdr, fp) := by
  unfold read_header fread
  simp [h, SIZEOF_SIZE_T]

theorem read_header_ok (fp : FILE) (hdr : header) (name : List Byte) (size : Nat)
    (rest : List Byte) (hn : name.length + 1 < 2 ^ 64) (hs : size < 2 ^ 64)
    (h : fp.data.drop fp.pos = header_bytes name size ++ rest) :
    read_header fp hdr = some (0, { name_len := name.length, name := name, file_size := size },
      { fp with pos := fp.pos + (16 + name.length) }) := by
  unfold header_bytes at h
  have h1 : fp.data.drop fp.pos = size_t_bytes name.length ++ (name ++ size_t_bytes size ++ rest) := by
    simp [h]
  have e1 := fread_exact fp _ _ h1
  rw [size_t_bytes_length] at e1
  have d1 := drop_advance _ _ _ _ h1
  rw [size_t_bytes_length] at d1
  have h2 : ({ fp with pos := fp.pos + 8 } : FILE).data.drop ({ fp with pos := fp.pos + 8 } : FILE).pos
      = name ++ (size_t_bytes size ++ rest) := by
    simpa using d1
  have e2 := fread_exact _ _ _ h2
  have d2 := drop_advance _ _ _ _ h2
  have h3 : ({ fp with pos := fp.pos + 8 + name.length } : FILE).data.drop
      ({ fp with pos := fp.pos + 8 + name.length } : FILE).pos
      = size_t_bytes size ++ rest := by
    simpa using d2
  have e3 := fread_exact _ _ _ h3
  rw [size_t_bytes_length] at e3
  have hn1 : name.length < 2 ^ 64 := by omega
  have hwrap : ¬ (name.length + 1) % 2 ^ 64 = 0 := by
    rw [Nat.mod_eq_of_lt hn]
    omega
  unfold read_header
  simp only [SIZEOF_SIZE_T, e1, size_t_bytes_length, le_value_size_t_bytes _ hn1,
    le_value_size_t_bytes _ hs]
  simp only [ne_eq, not_true_eq_false, if_false, hwrap]
  simp only [e2]
  simp only [ne_eq, not_true_eq_false, if_false]
  simp only [e3, size_t_bytes_length]
  simp only [ne_eq, not_true_eq_false, if_false]
  rw [le_value_size_t_bytes _ hs]
  have e : fp.pos + 8 + name.length + 8 = fp.pos + (16 + name.length) := by omega
  rw [e]


theorem to_int_of_lt (n : Nat) (h : n < 2 ^ 31) : to_int (n : Int) = n := by
  unfold to_int
  have h1 : (n : Int) % 2 ^ 32 = n := by omega
  rw [h1]
  simp only [ite_eq_left_iff, not_lt]
  intro h2
  omega

theorem to_size_t_natCast (n : Nat) (h : n < 2 ^ 64) : to_size_t (n : Int) = n := by
  unfold to_size_t
  have h1 : (n : Int) % 2 ^ 64 = n := by omega
  rw [h1]
  simp

theorem to_long_of_lt (n : Nat) (h : n < 2 ^ 63) : to_long n = n := by
  unfold to_long
  have h1 : n % 2 ^ 64 = n := by omega
  rw [h1, if_pos h]

/-- The count returned by `read_write` compares equal to a size below `2^63`
exactly when the size is below `2^31`. -/
theorem count_eq_iff (n : Nat) (h : n < 2 ^ 63) :
    to_size_t (to_int (n : Int)) = n ↔ n < 2 ^ 31 := by
  constructor
  · intro he
    by_contra hlt
    unfold to_int to_size_t at he
    split at he <;> omega
  · intro hlt
    rw [to_int_of_lt n hlt, to_size_t_natCast n (by omega)]

theorem read_write_loop_all (fuel : Nat) : ∀ (A B : FILE) (bytes written : Nat)
    (xs rest : List Byte), A.data.drop A.pos = xs ++ rest → written + xs.length = bytes →
    B.pos = B.data.length →
    read_write_loop fuel A B bytes written =
      if copy_steps xs.length ≤ fuel then
        some (to_int bytes, { A with pos := A.pos + xs.length },
          { B with data := B.data ++ xs, pos := B.data.length + xs.length })
      else none := by
  induction fuel with
  | zero =>
    intro A B bytes written xs rest _ _ _
    simp [read_write_loop, copy_steps]
  | succ fuel ih =>
    intro A B bytes written xs rest hA hlen hB
    unfold read_write_loop
    by_cases hw : written < bytes
    · simp only [hw, if_true]
      set want := if bytes - written > SIZEOF_BUF then SIZEOF_BUF else bytes - written with hwant
      have hwl : want ≤ xs.length := by
        rw [hwant]; split <;> omega
      have hwpos : 0 < want := by
        rw [hwant]; unfold SIZEOF_BUF; split <;> omega
      have hsteps : (copy_steps xs.length ≤ fuel + 1) ↔ (copy_steps (xs.length - want) ≤ fuel) := by
        rw [hwant]; unfold copy_steps SIZEOF_BUF; split <;> omega
      rw [fread_take A xs rest want hA hwl]
      simp only
      rw [fwrite_at_end B _ hB]
      simp only [ne_eq, not_true_eq_false, if_false]
      have hA' : ({ A with pos := A.pos + want } : FILE).data.drop
          ({ A with pos := A.pos + want } : FILE).pos = xs.drop want ++ rest := by
        simp only
        rw [← List.drop_drop, hA, List.drop_append_of_le_length hwl]
      have hl : (xs.take want).length = want := by simp [List.length_take, hwl]
      rw [ih _ _ bytes (written + (xs.take want).length) (xs.drop want) rest hA'
        (by rw [hl, List.length_drop]; omega) (by simp)]
      simp only [List.length_drop, List.append_assoc, List.take_append_drop, List.length_append, hl]
      have e1 : A.pos + want + (xs.length - want) = A.pos + xs.length := by omega
      have e2 : B.data.length + want + (xs.length - want) = B.data.length + xs.length := by omega
      rw [e1, e2]
      by_cases hs : copy_steps (xs.length - want) ≤ fuel
      · rw [if_pos hs, if_pos (hsteps.mpr hs)]
      · rw [if_neg hs, if_neg (fun h => hs (hsteps.mp h))]
    · have hx : xs = [] := by
        apply List.eq_nil_of_length_eq_zero; omega
      subst hx
      have hb : written = bytes := by simpa using hlen
      subst hb
      have hs : copy_steps 0 ≤ fuel + 1 := by
        simp [copy_steps, SIZEOF_BUF]
      simp only [lt_irrefl, if_false, List.length_nil, Nat.add_zero, List.append_nil]
      rw [← hB, if_pos hs]

theorem read_write_all (fuel : Nat) (A B : FILE) (xs rest : List Byte)
    (hA : A.data.drop A.pos = xs ++ rest) (hB : B.pos = B.data.length) :
    read_write fuel A B xs.length =
      if copy_steps xs.length ≤ fuel then
        some (to_int xs.length, { A with pos := A.pos + xs.length },
          { B with data := B.data ++ xs, pos := B.data.length + xs.length })
      else none :=
  read_write_loop_all fuel A B xs.length 0 xs rest hA (by simp) hB



theorem append_file_missing (fuel : Nat) (fs : FS) (farch : FILE) (filename : List Byte)
    (h : fs (cstr filename) = none) : append_file fuel fs farch filename = some (-1, farch) := by
  simp [append_file, stat, h]

theorem append_file_eq (fuel : Nat) (fs : FS) (farch : FILE) (name content : List Byte)
    (hname : CString name) (hsrc : fs name = some content) (hsz : content.length < 2 ^ 63)
    (hmode : farch.append = true) :
    append_file fuel fs farch name =
      if copy_steps content.length ≤ fuel then
        some (if content.length < 2 ^ 31 then 0 else -1,
          { farch with data := farch.data ++ record_bytes ⟨name, content⟩,
                       pos := farch.data.length + (record_bytes ⟨name, content⟩).length })
      else none := by
  have hc : cstr name = name := cstr_eq_self name hname.1
  have hts : to_size_t ((content.length : Nat) : Int) = content.length :=
    to_size_t_natCast _ (by omega)
  unfold append_file
  simp only [stat, fopen_r, hc, hsrc, Option.map_some', strlen, hts, List.take_length]
  rw [fwrite_append farch _ hmode]
  simp only [size_t_bytes_length, SIZEOF_SIZE_T, ne_eq, not_true_eq_false, if_false]
  rw [fwrite_append _ _ (by simpa using hmode)]
  simp only [ne_eq, not_true_eq_false, if_false]
  rw [fwrite_append _ _ (by simpa using hmode)]
  simp only [size_t_bytes_length, ne_eq, not_true_eq_false, if_false]
  rw [read_write_all fuel _ _ content [] (by simp) (by simp [size_t_bytes_length]; omega)]
  by_cases hf : copy_steps content.length ≤ fuel
  · simp only [hf, if_true]
    by_cases hlt : content.length < 2 ^ 31
    · have := (count_eq_iff content.length hsz).mpr hlt
      simp only [this, not_true_eq_false, if_false, hlt, if_true]
      simp [record_bytes, header_bytes, size_t_bytes_length, List.append_assoc]
      omega
    · have := (count_eq_iff content.length hsz).not.mpr hlt
      simp only [this, not_false_eq_true, if_true, hlt, if_false]
      simp [record_bytes, header_bytes, size_t_bytes_length, List.append_assoc]
      omega
  · simp only [hf, if_false]



/-- A cursor in front of a block of bytes lies that many bytes before the end
of the data. -/
theorem drop_bound (l xs rest : List Byte) (p : Nat) (h : l.drop p = xs ++ rest)
    (hx : 0 < xs.length) : p + xs.length ≤ l.length := by
  have e := congrArg List.length h
  simp only [List.length_drop, List.length_append] at e
  omega

/-- A relative seek forward by `n` bytes to an offset that the file or the file
system can hold. -/
theorem fseek_cur_size {lim : Nat} (fp : FILE) (n : Nat) (h : fp.pos + n < 2 ^ 63)
    (hin : fp.pos + n ≤ fp.data.length ∨ fp.pos + n ≤ lim) :
    fseek lim fp (to_long n) .SEEK_CUR = (0, { fp with pos := fp.pos + n }) := by
  unfold fseek
  rw [to_long_of_lt n (by omega)]
  have h1 : ¬ (((fp.pos : Int) + (n : Int) < 0) ∨ ((2 : Int) ^ 63 ≤ (fp.pos : Int) + (n : Int)) ∨
      (((fp.data.length : Int) < (fp.pos : Int) + (n : Int)) ∧
        ((lim : Int) < (fp.pos : Int) + (n : Int)))) := by
    omega
  simp only [h1, if_false]
  congr 2

/-- A relative seek forward by `n` bytes to an offset that the file system
refuses. -/
theorem fseek_cur_refused {lim : Nat} (fp : FILE) (n : Nat) (hn : n < 2 ^ 63)
    (hout : 2 ^ 63 ≤ fp.pos + n ∨ (fp.data.length < fp.pos + n ∧ lim < fp.pos + n)) :
    fseek lim fp (to_long n) .SEEK_CUR = (-1, fp) := by
  unfold fseek
  rw [to_long_of_lt n hn]
  have h1 : (((fp.pos : Int) + (n : Int) < 0) ∨ ((2 : Int) ^ 63 ≤ (fp.pos : Int) + (n : Int)) ∨
      (((fp.data.length : Int) < (fp.pos : Int) + (n : Int)) ∧
        ((lim : Int) < (fp.pos : Int) + (n : Int)))) := by
    omega
  simp only [h1, if_true]

theorem fseek_set_pos {lim : Nat} (fp : FILE) (n : Nat) (h : n < 2 ^ 63)
    (hin : n ≤ fp.data.length ∨ n ≤ lim) :
    fseek lim fp (n : Int) .SEEK_SET = (0, { fp with pos := n }) := by
  unfold fseek
  have h1 : ¬ (((n : Int) < 0) ∨ ((2 : Int) ^ 63 ≤ (n : Int)) ∨
      (((fp.data.length : Int) < (n : Int)) ∧ ((lim : Int) < (n : Int)))) := by omega
  simp only [h1, if_false]
  congr 2

theorem record_bytes_length (r : Record) :
    (record_bytes r).length = 16 + r.name.length + r.payload.length := by
  simp [record_bytes, header_bytes, size_t_bytes_length]
  omega

theorem header_bytes_length (name : List Byte) (size : Nat) :
    (header_bytes name size).length = 16 + name.length := by
  simp [header_bytes, size_t_bytes_length]
  omega

/-- Decoding the header of a record that lies at the cursor. -/
theorem read_header_record (fp : FILE) (hdr : header) (r : Record) (rest : List Byte)
    (hn : CString r.name) (hs : r.payload.length < 2 ^ 64)
    (h : fp.data.drop fp.pos = record_bytes r ++ rest) :
    read_header fp hdr = some (0, r.hdr, { fp with pos := fp.pos + (16 + r.name.length) }) := by
  have h' : fp.data.drop fp.pos = header_bytes r.name r.payload.length ++ (r.payload ++ rest) := by
    rw [h, record_bytes, List.append_assoc]
  exact read_header_ok fp hdr r.name r.payload.length _ hn.2 hs h'

/-- One iteration of `find_file` over a record with another name. -/
theorem find_file_skip {lim : Nat} (fuel : Nat) (fp : FILE) (hdr : header) (t : List Byte) (r : Record)
    (rest : List Byte) (hn : CString r.name) (hne : r.name ≠ cstr t)
    (h : fp.data.drop fp.pos = record_bytes r ++ rest)
    (hb : fp.pos + (record_bytes r).length < 2 ^ 63) :
    find_file lim (fuel + 1) fp hdr t =
      find_file lim fuel { fp with pos := fp.pos + (record_bytes r).length } r.hdr t := by
  have hin := drop_bound _ _ _ _ h (by rw [record_bytes_length]; omega)
  rw [record_bytes_length] at hb hin
  rw [find_file, read_header_record fp hdr r rest hn (by omega) h]
  have hcmp : ¬ strcmp r.hdr.name t = 0 := by
    rw [strcmp_eq_zero_iff]
    simp only [Record.hdr]
    rw [cstr_eq_self _ hn.1]
    exact hne
  simp only [if_true, hcmp, if_false]
  rw [fseek_cur_size _ _ (by simp [Record.hdr]; omega) (by simp [Record.hdr]; omega)]
  simp only [Record.hdr, record_bytes_length]
  have e : fp.pos + (16 + r.name.length) + r.payload.length
      = fp.pos + (16 + r.name.length + r.payload.length) := by omega
  simp [e]

theorem archive_bytes_append (xs ys : List Record) :
    archive_bytes (xs ++ ys) = archive_bytes xs ++ archive_bytes ys := by
  induction xs with
  | nil => rfl
  | cons x xs ih => simp [archive_bytes, ih]

/-- Scanning for a name that no record carries: `find_file` returns 0 with the
cursor at the end of the records. -/
theorem find_file_absent {lim : Nat} (t : List Byte) : ∀ (rs : List Record) (fuel : Nat) (fp : FILE)
    (hdr : header), (∀ r ∈ rs, CString r.name) → (∀ r ∈ rs, r.name ≠ cstr t) →
    fp.data.drop fp.pos = archive_bytes rs → fp.pos + (archive_bytes rs).length < 2 ^ 63 →
    rs.length < fuel →
    ∃ hdr1, find_file lim fuel fp hdr t
      = some (0, hdr1, { fp with pos := fp.pos + (archive_bytes rs).length }) := by
  intro rs
  induction rs with
  | nil =>
    intro fuel fp hdr _ _ h _ hf
    obtain ⟨k, rfl⟩ := Nat.exists_eq_succ_of_ne_zero (by omega : fuel ≠ 0)
    refine ⟨hdr, ?_⟩
    rw [find_file, read_header_eof fp hdr (by simpa [archive_bytes] using h)]
    simp [archive_bytes]
  | cons r rs ih =>
    intro fuel fp hdr hn hne h hb hf
    obtain ⟨k, rfl⟩ := Nat.exists_eq_succ_of_ne_zero (by omega : fuel ≠ 0)
    simp only [archive_bytes, List.length_append] at hb
    rw [find_file_skip k fp hdr t r (archive_bytes rs) (hn r (List.mem_cons_self _ _))
      (hne r (List.mem_cons_self _ _)) (by simpa [archive_bytes] using h) (by omega)]
    obtain ⟨hdr1, e⟩ := ih k { fp with pos := fp.pos + (record_bytes r).length } r.hdr
      (fun q hq => hn q (List.mem_cons_of_mem _ hq))
      (fun q hq => hne q (List.mem_cons_of_mem _ hq))
      (by
        simp only
        rw [← List.drop_drop, h, archive_bytes, List.drop_left])
      (by simp only; omega) (by simpa using hf)
    refine ⟨hdr1, ?_⟩
    rw [e]
    simp [archive_bytes, Nat.add_assoc]

/-- Scanning for a name: `find_file` stops at the first record that carries it
and returns the offset of its payload, converted to `int`. -/
theorem find_file_present {lim : Nat} (t : List Byte) : ∀ (pre : List Record) (fuel : Nat) (fp : FILE)
    (hdr : header) (name : List Byte) (size : Nat) (rest : List Byte),
    (∀ r ∈ pre, CString r.name) → (∀ r ∈ pre, r.name ≠ cstr t) →
    CString name → name = cstr t → size < 2 ^ 64 →
    fp.data.drop fp.pos = archive_bytes pre ++ (header_bytes name size ++ rest) →
    fp.pos + (archive_bytes pre).length < 2 ^ 63 →
    pre.length < fuel →
    find_file lim fuel fp hdr t
      = some (to_int ((fp.pos + (archive_bytes pre).length + (16 + name.length) : Nat) : Int),
          { name_len := name.length, name := name, file_size := size },
          { fp with pos := fp.pos + (archive_bytes pre).length + (16 + name.length) }) := by
  intro pre
  induction pre with
  | nil =>
    intro fuel fp hdr name size rest _ _ hn ht hs h _ hf
    obtain ⟨k, rfl⟩ := Nat.exists_eq_succ_of_ne_zero (by omega : fuel ≠ 0)
    rw [find_file, read_header_ok fp hdr name size rest hn.2 hs (by simpa [archive_bytes] using h)]
    have hcmp : strcmp name t = 0 := by
      rw [strcmp_eq_zero_iff, cstr_eq_self _ hn.1]
      exact ht
    simp [hcmp, archive_bytes, ftell]
  | cons r rs ih =>
    intro fuel fp hdr name size rest hn hne hcs ht hs h hb hf
    obtain ⟨k, rfl⟩ := Nat.exists_eq_succ_of_ne_zero (by omega : fuel ≠ 0)
    simp only [archive_bytes, List.length_append] at hb
    rw [find_file_skip k fp hdr t r (archive_bytes rs ++ (header_bytes name size ++ rest))
      (hn r (List.mem_cons_self _ _))
      (hne r (List.mem_cons_self _ _)) (by simpa [archive_bytes] using h) (by omega)]
    rw [ih k { fp with pos := fp.pos + (record_bytes r).length } r.hdr name size rest
      (fun q hq => hn q (List.mem_cons_of_mem _ hq))
      (fun q hq => hne q (List.mem_cons_of_mem _ hq)) hcs ht hs
      (by
        simp only
        rw [← List.drop_drop, h, archive_bytes, List.append_assoc, List.drop_left])
      (by simp only; omega) (by simpa using hf)]
    simp [archive_bytes, Nat.add_assoc]



theorem FS.write_files (fs : FS) (n c m : List Byte) :
    (fs.write n c) m = if m = n then some c else fs m := rfl

theorem fopen_w_ok (fs : FS) (name : List Byte) (h : fs.can_create (cstr name) = true) :
    fopen_w fs name = some (fs.write (cstr name) [], { data := [], pos := 0, append := false }) := by
  unfold fopen_w
  rw [if_pos h]

/-- One iteration of `list_files` over a record at the cursor. -/
theorem list_files_loop_step {lim : Nat} (fuel : Nat) (fp : FILE) (hdr : header) (out : List Byte)
    (r : Record) (rest : List Byte) (hn : CString r.name)
    (h : fp.data.drop fp.pos = record_bytes r ++ rest)
    (hb : fp.pos + (record_bytes r).length < 2 ^ 63) :
    list_files_loop lim (fuel + 1) fp hdr out =
      list_files_loop lim fuel { fp with pos := fp.pos + (record_bytes r).length } r.hdr
        (out ++ record_line r) := by
  have hin := drop_bound _ _ _ _ h (by rw [record_bytes_length]; omega)
  rw [record_bytes_length] at hb hin
  rw [list_files_loop, read_header_record fp hdr r rest hn (by omega) h]
  simp only [if_true]
  rw [fseek_cur_size _ _ (by simp [Record.hdr]; omega) (by simp [Record.hdr]; omega)]
  simp only [Record.hdr, record_bytes_length, list_line, record_line, cstr_eq_self _ hn.1]
  have e : fp.pos + (16 + r.name.length) + r.payload.length
      = fp.pos + (16 + r.name.length + r.payload.length) := by omega
  simp [e]

theorem list_files_loop_records {lim : Nat} : ∀ (rs : List Record) (fuel : Nat) (fp : FILE) (hdr : header)
    (out : List Byte), (∀ r ∈ rs, CString r.name) →
    fp.data.drop fp.pos = archive_bytes rs → fp.pos + (archive_bytes rs).length < 2 ^ 63 →
    rs.length < fuel →
    list_files_loop lim fuel fp hdr out = some (EXIT_SUCCESS, out ++ listing rs) := by
  intro rs
  induction rs with
  | nil =>
    intro fuel fp hdr out _ h _ hf
    obtain ⟨k, rfl⟩ := Nat.exists_eq_succ_of_ne_zero (by omega : fuel ≠ 0)
    rw [list_files_loop, read_header_eof fp hdr (by simpa [archive_bytes] using h)]
    simp [listing]
  | cons r rs ih =>
    intro fuel fp hdr out hn h hb hf
    obtain ⟨k, rfl⟩ := Nat.exists_eq_succ_of_ne_zero (by omega : fuel ≠ 0)
    simp only [archive_bytes, List.length_append] at hb
    rw [list_files_loop_step k fp hdr out r (archive_bytes rs) (hn r (List.mem_cons_self _ _))
      (by simpa [archive_bytes] using h) (by omega)]
    rw [ih k _ _ _ (fun q hq => hn q (List.mem_cons_of_mem _ hq))
      (by
        simp only
        rw [← List.drop_drop, h, archive_bytes, List.drop_left])
      (by simp only; omega) (by simpa using hf)]
    simp [listing, List.append_assoc]

/-- What a successful sequence of appends has written. -/
theorem Appended.bytes {rs : List Record} {arc : List Byte} (h : Appended rs arc) :
    arc = archive_bytes rs ∧ ∀ r ∈ rs, CString r.name ∧ r.payload.length < 2 ^ 31 := by
  induction h with
  | empty => simp [archive_bytes]
  | step fuel fs farch farch1 name content _ hd hm hn hsrc hsz happ ih =>
    rw [append_file_eq fuel fs farch name content hn hsrc hsz hm] at happ
    split at happ
    · simp only [Option.some.injEq, Prod.mk.injEq] at happ
      obtain ⟨h0, h1⟩ := happ
      have hlt : content.length < 2 ^ 31 := by
        by_contra hc
        rw [if_neg hc] at h0
        omega
      constructor
      · rw [← h1, archive_bytes_append, hd, ih.1]
        simp [archive_bytes]
      · intro r hr
        rcases List.mem_append.mp hr with hr | hr
        · exact ih.2 r hr
        · simp only [List.mem_singleton] at hr
          subst hr
          exact ⟨hn, hlt⟩
    · simp at happ



/-- The first record that carries a given name. -/
theorem exists_first_named : ∀ (rs : List Record) (n : List Byte), n ∈ rs.map Record.name →
    ∃ pre r post, rs = pre ++ r :: post ∧ r.name = n ∧ ∀ q ∈ pre, q.name ≠ n := by
  intro rs
  induction rs with
  | nil => intro n h; simp at h
  | cons x xs ih =>
    intro n h
    by_cases hx : x.name = n
    · exact ⟨[], x, xs, rfl, hx, by simp⟩
    · have h' : n ∈ xs.map Record.name := by
        simp only [List.map_cons, List.mem_cons] at h
        rcases h with h | h
        · exact absurd h.symm hx
        · exact h
      obtain ⟨pre, r, post, e, hr, hpre⟩ := ih n h'
      refine ⟨x :: pre, r, post, by simp [e], hr, ?_⟩
      intro q hq
      rcases List.mem_cons.mp hq with rfl | hq
      · exact hx
      · exact hpre q hq

theorem to_int_pos_of_lt (n : Nat) (h0 : 0 < n) (h : n < 2 ^ 31) : to_int (n : Int) > 0 := by
  rw [to_int_of_lt n h]
  omega

/-- The scan of `find_file` over well-formed records for a name that some
record carries: it stops at the first such record and returns the offset of
its payload, converted to `int`. -/
theorem find_file_first {lim : Nat} (rs pre post : List Record) (r : Record) (t : List Byte) (fuel : Nat)
    (fp : FILE) (hdr : header)
    (hwf : ∀ q ∈ rs, CString q.name) (hlen : fp.pos + (archive_bytes rs).length < 2 ^ 63)
    (hsplit : rs = pre ++ r :: post) (ht : r.name = cstr t) (hpre : ∀ q ∈ pre, q.name ≠ cstr t)
    (hdata : fp.data.drop fp.pos = archive_bytes rs) (hfuel : pre.length < fuel) :
    find_file lim fuel fp hdr t
      = some (to_int ((fp.pos + (archive_bytes pre).length + (16 + r.name.length) : Nat) : Int),
          r.hdr, { fp with pos := fp.pos + (archive_bytes pre).length + (16 + r.name.length) }) := by
  subst hsplit
  have hl : (archive_bytes (pre ++ r :: post)).length
      = (archive_bytes pre).length + (16 + r.name.length + r.payload.length)
        + (archive_bytes post).length := by
    simp [archive_bytes_append, archive_bytes, record_bytes_length]
    omega
  exact find_file_present t pre fuel fp hdr r.name r.payload.length
    (r.payload ++ archive_bytes post)
    (fun q hq => hwf q (List.mem_append_left _ hq)) hpre
    (hwf r (List.mem_append_right _ (List.mem_cons_self _ _))) ht (by omega)
    (by rw [hdata, archive_bytes_append, archive_bytes, record_bytes, List.append_assoc])
    (by omega) hfuel


theorem big_payload_length : big_payload.length = 2 ^ 31 := by
  unfold big_payload
  exact List.length_replicate _ _

theorem big_archive_length (p : List Byte) :
    (archive_bytes (big_archive p)).length = p.length + 34 := by
  have h1 : (ascii "a").length = 1 := by decide
  have h2 : (ascii "b").length = 1 := by decide
  simp only [big_archive, archive_bytes, List.length_append, record_bytes_length,
    h1, h2, List.length_nil]
  omega

theorem big_archive_names (p : List Byte) : ∀ r ∈ big_archive p, CString r.name := by
  intro r hr
  simp only [big_archive, List.mem_cons, List.mem_singleton, List.not_mem_nil, or_false] at hr
  rcases hr with rfl | rfl
  · exact (by decide : CString (ascii "a"))
  · exact (by decide : CString (ascii "b"))

/-- The batch `b` on `big_archive p` when `p` is `2^31` bytes long. -/
theorem append_files_big_archive {lim : Nat} (p : List Byte) (hp : p.length = 2 ^ 31) :
    WellFormed (big_archive p) ∧ CString (ascii "b") ∧
    ((FS.empty.write (ascii "b") []) (ascii "b")).isSome = true ∧
    ascii "b" ∈ (big_archive p).map Record.name ∧
    append_files lim 2 (some (archive_bytes (big_archive p))) (FS.empty.write (ascii "b") [])
        [ascii "b"]
      = some (EXIT_SUCCESS, archive_bytes (big_archive p) ++ record_bytes ⟨ascii "b", []⟩) ∧
    append_files lim 2 (some (archive_bytes (big_archive p))) (FS.empty.write (ascii "b") [])
        [ascii "b"]
      ≠ some (EXIT_FAILURE, archive_bytes (big_archive p)) := by
  have hb : (ascii "b").length = 1 := by decide
  have hwf : WellFormed (big_archive p) :=
    ⟨big_archive_names p, by rw [big_archive_length, hp]; norm_num⟩
  have hmem : ascii "b" ∈ (big_archive p).map Record.name := by
    simp [big_archive]
  have hcb : CString (ascii "b") := by decide
  have hc : cstr (ascii "b") = ascii "b" := cstr_eq_self _ hcb.1
  have hfind := @find_file_first lim (big_archive p) [⟨ascii "a", p⟩] [] ⟨ascii "b", []⟩
    (ascii "b") 2 { data := archive_bytes (big_archive p), pos := 0, append := true }
    { name_len := 0, name := [], file_size := 0 } (big_archive_names p)
    (by simp only [big_archive_length, hp]; norm_num) rfl hc.symm
    (by
      intro q hq
      simp only [List.mem_singleton] at hq
      subst hq
      rw [hc]
      exact (by decide : ascii "a" ≠ ascii "b"))
    rfl (by simp)
  have hoff : 0 + (archive_bytes [(⟨ascii "a", p⟩ : Record)]).length
      + (16 + (ascii "b").length) = 2 ^ 31 + 34 := by
    have h1 : (ascii "a").length = 1 := by decide
    simp only [archive_bytes, List.length_append, record_bytes_length,
      hp, h1, hb, List.length_nil]
    norm_num
  dsimp only at hfind
  rw [hoff] at hfind
  have hneg : ¬ to_int (((2 ^ 31 + 34 : Nat)) : Int) > 0 := by
    decide
  have happ := append_file_eq 2 (FS.empty.write (ascii "b") [])
    { data := archive_bytes (big_archive p), pos := 2 ^ 31 + 34, append := true } (ascii "b") []
    hcb (by simp [FS.write]) (by simp) rfl
  rw [if_pos (by decide)] at happ
  have hacc : ¬ access (FS.empty.write (ascii "b") []) (ascii "b") = -1 := by
    simp [access, hc, FS.write]
  have hres : append_files lim 2 (some (archive_bytes (big_archive p)))
      (FS.empty.write (ascii "b") []) [ascii "b"]
      = some (EXIT_SUCCESS, archive_bytes (big_archive p) ++ record_bytes ⟨ascii "b", []⟩) := by
    simp only [append_files, fopen_archive_a, Option.getD_some, append_files_loop, hacc,
      if_false, hfind, hneg, happ]
    simp [EXIT_SUCCESS]
  refine ⟨hwf, hcb, by simp [FS.write], hmem, hres, ?_⟩
  rw [hres]
  simp [EXIT_SUCCESS, EXIT_FAILURE]


theorem archive_bytes_split_length (p q : List Record) (r : Record) :
    (archive_bytes (p ++ r :: q)).length
      = (archive_bytes p).length + (16 + r.name.length + r.payload.length)
        + (archive_bytes q).length := by
  simp [archive_bytes_append, archive_bytes, record_bytes_length]
  omega

theorem decoy_payload_length : decoy_payload.length = 2 ^ 32 := by
  have hc : (ascii "c").length = 1 := by decide
  unfold decoy_payload
  rw [List.length_append, List.length_append, List.length_replicate, List.length_replicate,
    header_bytes_length, hc]
  norm_num

/-- The request `b, c` on `big_archive p` when `p` is `2^32` bytes long and
holds the header of an empty record `c` from its byte 17 on. -/
theorem extract_files_big_archive {lim : Nat} (p tail : List Byte)
    (hp : p = List.replicate 17 0 ++ (header_bytes (ascii "c") 0 ++ tail))
    (hlen : p.length = 2 ^ 32) :
    WellFormed (big_archive p) ∧ CString (ascii "b") ∧ CString (ascii "c") ∧
    ascii "c" ∉ (big_archive p).map Record.name ∧
    ∃ dir1, extract_files lim 3 (some (archive_bytes (big_archive p))) FS.empty
        [ascii "b", ascii "c"] = some (EXIT_SUCCESS, dir1) ∧
      dir1 (ascii "c") = some [] := by
  have ha : (ascii "a").length = 1 := by decide
  have hb : (ascii "b").length = 1 := by decide
  have hcl : (ascii "c").length = 1 := by decide
  have hcb : CString (ascii "b") := by decide
  have hcc : CString (ascii "c") := by decide
  have hsb : cstr (ascii "b") = ascii "b" := cstr_eq_self _ hcb.1
  have hsc : cstr (ascii "c") = ascii "c" := cstr_eq_self _ hcc.1
  have hwf : WellFormed (big_archive p) :=
    ⟨big_archive_names p, by rw [big_archive_length, hlen]; norm_num⟩
  have hmem : ascii "c" ∉ (big_archive p).map Record.name := by
    simp only [big_archive, List.map_cons, List.map_nil, List.mem_cons, List.mem_singleton,
      List.not_mem_nil, or_false, not_or]
    exact ⟨by decide, by decide⟩
  -- the scan for `b`
  have hfind := @find_file_first lim (big_archive p) [⟨ascii "a", p⟩] [] ⟨ascii "b", []⟩
    (ascii "b") 3 { data := archive_bytes (big_archive p), pos := 0, append := false }
    { name_len := 0, name := [], file_size := 0 } (big_archive_names p)
    (by simp only [big_archive_length, hlen]; norm_num) rfl hsb.symm
    (by
      intro q hq
      simp only [List.mem_singleton] at hq
      subst hq
      rw [hsb]
      exact (by decide : ascii "a" ≠ ascii "b"))
    rfl (by simp)
  have hoff : 0 + (archive_bytes [(⟨ascii "a", p⟩ : Record)]).length
      + (16 + (ascii "b").length) = 2 ^ 32 + 34 := by
    simp only [archive_bytes, List.length_append, record_bytes_length,
      hlen, ha, hb, List.length_nil]
    norm_num
  dsimp only at hfind
  rw [hoff] at hfind
  have hti : to_int (((2 ^ 32 + 34 : Nat)) : Int) = ((34 : Nat) : Int) := by
    decide
  rw [hti] at hfind
  -- the bytes at offset 34
  have hdrop : (archive_bytes (big_archive p)).drop 34
      = archive_bytes [] ++ (header_bytes (ascii "c") 0
          ++ (tail ++ archive_bytes [⟨ascii "b", []⟩])) := by
    have e : archive_bytes (big_archive p)
        = (header_bytes (ascii "a") p.length ++ List.replicate 17 0)
          ++ (header_bytes (ascii "c") 0 ++ (tail ++ archive_bytes [⟨ascii "b", []⟩])) := by
      simp only [big_archive, archive_bytes, record_bytes]
      rw [hp]
      simp only [List.append_assoc, List.append_nil]
    have hl : (header_bytes (ascii "a") p.length ++ List.replicate 17 (0 : Byte)).length = 34 := by
      rw [List.length_append, header_bytes_length, List.length_replicate, ha]
    rw [e, ← hl, List.drop_left]
    rfl
  have hfind2 := @find_file_present lim (ascii "c") [] 3
    { data := archive_bytes (big_archive p), pos := 34, append := false }
    (⟨ascii "b", []⟩ : Record).hdr (ascii "c") 0 (tail ++ archive_bytes [⟨ascii "b", []⟩])
    (by simp) (by simp) hcc hsc.symm (by norm_num) hdrop (by simp [archive_bytes]) (by simp)
  have hoff2 : 34 + (archive_bytes []).length + (16 + (ascii "c").length) = 51 := by
    simp only [archive_bytes, List.length_nil, hcl]
  dsimp only at hfind2
  rw [hoff2] at hfind2
  have hti2 : to_int (((51 : Nat)) : Int) = ((51 : Nat) : Int) := by
    decide
  rw [hti2] at hfind2
  -- the two copies of no bytes
  have hrw1 := read_write_all 3
    { data := archive_bytes (big_archive p), pos := 34, append := false }
    { data := [], pos := 0, append := false } []
    ((archive_bytes (big_archive p)).drop 34) (by simp) rfl
  have hrw2 := read_write_all 3
    { data := archive_bytes (big_archive p), pos := 51, append := false }
    { data := [], pos := 0, append := false } []
    ((archive_bytes (big_archive p)).drop 51) (by simp) rfl
  rw [if_pos (by decide)] at hrw1 hrw2
  simp only [List.length_nil, Nat.add_zero, List.append_nil] at hrw1 hrw2
  have hz : to_size_t (to_int ((0 : Nat) : Int)) = 0 := by decide
  simp only [Record.hdr, List.length_nil] at hfind hfind2
  have h34 : ((34 : Nat) : Int) > 0 := by decide
  have h51 : ((51 : Nat) : Int) > 0 := by decide
  have h01 : ¬ ((0 : Int) = -1) := by decide
  have hlarge : 51 ≤ (archive_bytes (big_archive p)).length := by
    rw [big_archive_length, hlen]
    norm_num
  have hseek1 := @fseek_set_pos lim
    { data := archive_bytes (big_archive p), pos := 2 ^ 32 + 34, append := false } 34
    (by norm_num) (Or.inl (by simp only; omega))
  have hseek2 := @fseek_set_pos lim
    { data := archive_bytes (big_archive p), pos := 51, append := false } 51
    (by norm_num) (Or.inl (by simp only; omega))
  have hopen1 := fopen_w_ok FS.empty (ascii "b") (by decide)
  have hopen2 := fopen_w_ok ((FS.empty.write (ascii "b") []).write (ascii "b") []) (ascii "c")
    (by decide)
  rw [hsb] at hopen1
  rw [hsc] at hopen2
  refine ⟨hwf, hcb, hcc, hmem,
    (((FS.empty.write (ascii "b") []).write (ascii "b") []).write (ascii "c") []).write
      (ascii "c") [], ?_, by simp [FS.write_files]⟩
  simp only [extract_files, fopen_archive_r, Option.map_some', extract_files_loop, hfind, h34,
    if_true, hopen1, hseek1, h01, if_false, List.length_nil, hrw1, hz,
    ne_eq, not_true_eq_false, hfind2, h51, hopen2, hseek2, hrw2, fclose_w,
    hsb, hsc]


/-- The loop of `list_files` runs through the records that lie at the cursor,
whatever follows them. -/
theorem list_files_loop_over {lim : Nat} : ∀ (rs : List Record) (fuel : Nat) (fp : FILE) (hdr : header)
    (out rest : List Byte), (∀ r ∈ rs, CString r.name) →
    fp.data.drop fp.pos = archive_bytes rs ++ rest →
    fp.pos + (archive_bytes rs).length < 2 ^ 63 →
    ∃ hdr1, list_files_loop lim (fuel + rs.length) fp hdr out
      = list_files_loop lim fuel { fp with pos := fp.pos + (archive_bytes rs).length } hdr1
          (out ++ listing rs) := by
  intro rs
  induction rs with
  | nil =>
    intro fuel fp hdr out rest _ _ _
    exact ⟨hdr, by simp [archive_bytes, listing]⟩
  | cons r rs ih =>
    intro fuel fp hdr out rest hn h hb
    simp only [archive_bytes, List.length_append] at hb
    have e : fuel + (r :: rs).length = (fuel + rs.length) + 1 := by simp; omega
    rw [e, list_files_loop_step (fuel + rs.length) fp hdr out r (archive_bytes rs ++ rest)
      (hn r (List.mem_cons_self _ _))
      (by rw [h, archive_bytes, List.append_assoc]) (by omega)]
    obtain ⟨hdr1, e1⟩ := ih fuel { fp with pos := fp.pos + (record_bytes r).length } r.hdr
      (out ++ record_line r) rest (fun q hq => hn q (List.mem_cons_of_mem _ hq))
      (by
        simp only
        rw [← List.drop_drop, h, archive_bytes, List.append_assoc, List.drop_left])
      (by simp only; omega)
    refine ⟨hdr1, ?_⟩
    rw [e1]
    simp [archive_bytes, listing, List.append_assoc, Nat.add_assoc]

/-- The loop of `find_file` runs through the records with other names that lie
at the cursor, whatever follows them. -/
theorem find_file_over {lim : Nat} (t : List Byte) : ∀ (rs : List Record) (fuel : Nat) (fp : FILE)
    (hdr : header) (rest : List Byte), (∀ r ∈ rs, CString r.name) →
    (∀ r ∈ rs, r.name ≠ cstr t) →
    fp.data.drop fp.pos = archive_bytes rs ++ rest →
    fp.pos + (archive_bytes rs).length < 2 ^ 63 →
    ∃ hdr1, find_file lim (fuel + rs.length) fp hdr t
      = find_file lim fuel { fp with pos := fp.pos + (archive_bytes rs).length } hdr1 t := by
  intro rs
  induction rs with
  | nil =>
    intro fuel fp hdr rest _ _ _ _
    exact ⟨hdr, by simp [archive_bytes]⟩
  | cons r rs ih =>
    intro fuel fp hdr rest hn hne h hb
    simp only [archive_bytes, List.length_append] at hb
    have e : fuel + (r :: rs).length = (fuel + rs.length) + 1 := by simp; omega
    rw [e, find_file_skip (fuel + rs.length) fp hdr t r (archive_bytes rs ++ rest)
      (hn r (List.mem_cons_self _ _)) (hne r (List.mem_cons_self _ _))
      (by rw [h, archive_bytes, List.append_assoc]) (by omega)]
    obtain ⟨hdr1, e1⟩ := ih fuel { fp with pos := fp.pos + (record_bytes r).length } r.hdr
      rest (fun q hq => hn q (List.mem_cons_of_mem _ hq))
      (fun q hq => hne q (List.mem_cons_of_mem _ hq))
      (by
        simp only
        rw [← List.drop_drop, h, archive_bytes, List.append_assoc, List.drop_left])
      (by simp only; omega)
    refine ⟨hdr1, ?_⟩
    rw [e1]
    simp [archive_bytes, Nat.add_assoc]

theorem read_header_past_end (fp : FILE) (hdr : header) (h : fp.data.length ≤ fp.pos) :
    read_header fp hdr = some (-1, hdr, fp) :=
  read_header_eof fp hdr (List.drop_eq_nil_of_le h)


/-- A stream that ends inside a header: `read_header` returns -1. -/
theorem read_header_truncated (fp : FILE) (hdr : header) (name : List Byte) (size k : Nat)
    (hn1 : name.length + 1 < 2 ^ 64) (hk : k < 16 + name.length)
    (h : fp.data.drop fp.pos = (header_bytes name size).take k) :
    ∃ f1, read_header fp hdr = some (-1, hdr, f1) := by
  have hn : name.length < 2 ^ 64 := by omega
  have hwrap : ¬ (name.length + 1) % 2 ^ 64 = 0 := by
    rw [Nat.mod_eq_of_lt hn1]
    omega
  unfold read_header fread
  simp only [h, SIZEOF_SIZE_T]
  by_cases h8 : k < 8
  · have hl : (List.take 8 (List.take k (header_bytes name size))).length ≠ 8 := by
      simp only [List.length_take, header_bytes_length]
      omega
    simp only [ne_eq, hl, not_false_eq_true, if_true]
    exact ⟨_, rfl⟩
  · have hsplit : (header_bytes name size).take k
        = size_t_bytes name.length ++ (name ++ size_t_bytes size).take (k - 8) := by
      unfold header_bytes
      rw [List.append_assoc, List.take_append_eq_append_take, size_t_bytes_length,
        List.take_of_length_le (by rw [size_t_bytes_length]; omega)]
    have hfirst : List.take 8 (List.take k (header_bytes name size)) = size_t_bytes name.length := by
      rw [hsplit, List.take_append_eq_append_take, size_t_bytes_length]
      simp [List.take_of_length_le, size_t_bytes_length]
    have hd1 : List.drop (fp.pos + 8) fp.data = (name ++ size_t_bytes size).take (k - 8) := by
      rw [← List.drop_drop, h, hsplit]
      have := List.drop_left (size_t_bytes name.length) ((name ++ size_t_bytes size).take (k - 8))
      rwa [size_t_bytes_length] at this
    simp only [hfirst, size_t_bytes_length, ne_eq, not_true_eq_false, if_false,
      le_value_size_t_bytes _ hn, hd1, hwrap]
    by_cases hL : k - 8 < name.length
    · have hl : (List.take name.length (List.take (k - 8) (name ++ size_t_bytes size))).length
          ≠ name.length := by
        simp only [List.length_take, List.length_append, size_t_bytes_length]
        omega
      simp only [hl, not_false_eq_true, if_true]
      exact ⟨_, rfl⟩
    · have hsplit2 : (name ++ size_t_bytes size).take (k - 8)
          = name ++ (size_t_bytes size).take (k - 8 - name.length) := by
        rw [List.take_append_eq_append_take, List.take_of_length_le (by omega)]
      have hsec : List.take name.length (List.take (k - 8) (name ++ size_t_bytes size)) = name := by
        rw [hsplit2, List.take_append_eq_append_take]
        simp
      have hd2 : List.drop (fp.pos + 8 + name.length) fp.data
          = (size_t_bytes size).take (k - 8 - name.length) := by
        rw [← List.drop_drop, hd1, hsplit2, List.drop_left]
      have hl : (List.take 8 (List.take (k - 8 - name.length) (size_t_bytes size))).length ≠ 8 := by
        simp only [List.length_take, size_t_bytes_length]
        omega
      simp only [hsec, not_true_eq_false, if_false, hd2, hl, not_false_eq_true, if_true]
      exact ⟨_, rfl⟩


/-- The loop of `list_files` ends with success as soon as `read_header` fails. -/
theorem list_files_loop_stop {lim : Nat} (fuel : Nat) (fp : FILE) (hdr hdr1 : header)
    (out : List Byte) (r : Int) (f1 : FILE) (h : read_header fp hdr = some (r, hdr1, f1))
    (hr : r ≠ 0) :
    list_files_loop lim (fuel + 1) fp hdr out = some (EXIT_SUCCESS, out) := by
  rw [list_files_loop, h]
  simp [hr]

theorem fwrite_count (fp : FILE) (buf : List Byte) : (fwrite fp buf).1 = buf.length := rfl

/-- When the source holds fewer bytes than are still to be copied, the loop of
`read_write` never ends: no amount of fuel gives a result. -/
theorem read_write_loop_short (fuel : Nat) : ∀ (A B : FILE) (bytes written : Nat),
    written + (A.data.length - A.pos) < bytes →
    read_write_loop fuel A B bytes written = none := by
  induction fuel with
  | zero => intro A B bytes written _; rfl
  | succ fuel ih =>
    intro A B bytes written h
    have hw : written < bytes := by omega
    rw [read_write_loop]
    simp only [hw, if_true, fread, fwrite, ne_eq, not_true_eq_false, if_false]
    apply ih
    simp only [List.length_take, List.length_drop]
    omega

/-- The traced loop computes what the loop of `read_write` computes. -/
theorem read_write_traced_fst (fuel : Nat) : ∀ (A B : FILE) (bytes written : Nat)
    (reqs : List Nat),
    (read_write_traced fuel A B bytes written reqs).map Prod.fst
      = read_write_loop fuel A B bytes written := by
  induction fuel with
  | zero => intro A B bytes written reqs; rfl
  | succ fuel ih =>
    intro A B bytes written reqs
    rw [read_write_traced, read_write_loop]
    by_cases hw : written < bytes
    · simp only [hw, if_true, fwrite, ne_eq, not_true_eq_false, if_false]
      exact ih _ _ _ _ _
    · simp only [hw, if_false, Option.map_some']

/-- No `fread` of `read_write` asks for more than the buffer holds. -/
theorem read_write_traced_bound (fuel : Nat) : ∀ (A B : FILE) (bytes written : Nat)
    (reqs : List Nat) (res : Int × FILE × FILE) (reqs1 : List Nat),
    read_write_traced fuel A B bytes written reqs = some (res, reqs1) →
    (∀ r ∈ reqs, r ≤ SIZEOF_BUF) → ∀ r ∈ reqs1, r ≤ SIZEOF_BUF := by
  induction fuel with
  | zero => intro A B bytes written reqs res reqs1 h; simp [read_write_traced] at h
  | succ fuel ih =>
    intro A B bytes written reqs res reqs1 h hreqs
    rw [read_write_traced] at h
    by_cases hw : written < bytes
    · simp only [hw, if_true, fwrite, ne_eq, not_true_eq_false, if_false] at h
      refine ih _ _ _ _ _ _ _ h ?_
      intro r hr
      rcases List.mem_append.mp hr with hr | hr
      · exact hreqs r hr
      · simp only [List.mem_singleton] at hr
        subst hr
        split <;> omega
    · simp only [hw, if_false, Option.some.injEq, Prod.mk.injEq] at h
      rw [← h.2]
      exact hreqs

/-- The exact copy into a destination that writes at its end, be it in append
mode or positioned there. -/
theorem read_write_loop_end (fuel : Nat) (A B : FILE) (bytes written : Nat)
    (xs rest : List Byte) (hA : A.data.drop A.pos = xs ++ rest)
    (hlen : written + xs.length = bytes)
    (hB : B.append = true ∨ B.pos = B.data.length) (hfuel : copy_steps xs.length ≤ fuel) :
    ∃ B1, read_write_loop fuel A B bytes written
        = some (to_int bytes, { A with pos := A.pos + xs.length }, B1) ∧
      B1.data = B.data ++ xs ∧ B1.append = B.append ∧ (xs = [] → B1 = B) := by
  obtain ⟨k, rfl⟩ : ∃ k, fuel = k + 1 := ⟨fuel - 1, by unfold copy_steps SIZEOF_BUF at hfuel; omega⟩
  by_cases hx : xs = []
  · subst hx
    have hb : written = bytes := by simpa using hlen
    subst hb
    exact ⟨B, by simp [read_write_loop], by simp, rfl, fun _ => rfl⟩
  · have hpos : 0 < xs.length := List.length_pos.mpr hx
    have hw : written < bytes := by omega
    set want := if bytes - written > SIZEOF_BUF then SIZEOF_BUF else bytes - written with hwant
    have hwl : want ≤ xs.length := by
      rw [hwant]; split <;> omega
    have hwpos : 0 < want := by
      rw [hwant]; unfold SIZEOF_BUF; split <;> omega
    have hsteps : copy_steps (xs.length - want) ≤ k := by
      rw [hwant]; rw [hwant] at hwpos hwl; unfold copy_steps SIZEOF_BUF at *; split <;> omega
    have hfw : fwrite B (xs.take want) = ((xs.take want).length,
        { B with data := B.data ++ xs.take want,
                 pos := B.data.length + (xs.take want).length }) := by
      rcases hB with h | h
      · exact fwrite_append B _ h
      · exact fwrite_at_end B _ h
    have hl : (xs.take want).length = want := by simp [List.length_take, hwl]
    have hA1 : ({ A with pos := A.pos + want } : FILE).data.drop
        ({ A with pos := A.pos + want } : FILE).pos = xs.drop want ++ rest := by
      simp only
      rw [← List.drop_drop, hA, List.drop_append_of_le_length hwl]
    have hrest := read_write_loop_all k { A with pos := A.pos + want }
      { B with data := B.data ++ xs.take want, pos := B.data.length + (xs.take want).length }
      bytes (written + (xs.take want).length) (xs.drop want) rest hA1
      (by rw [hl, List.length_drop]; omega) (by simp)
    rw [List.length_drop, if_pos hsteps] at hrest
    refine ⟨{ B with data := B.data ++ xs, pos := B.data.length + xs.length }, ?_, rfl, rfl,
      fun h => absurd h hx⟩
    rw [read_write_loop]
    simp only [hw, if_true]
    rw [← hwant, fread_take A xs rest want hA hwl]
    simp only
    rw [hfw]
    simp only [ne_eq, not_true_eq_false, if_false]
    rw [hrest]
    have e1 : A.pos + want + (xs.length - want) = A.pos + xs.length := by omega
    have e2 : B.data.length + want + (xs.length - want) = B.data.length + xs.length := by omega
    simp only [e1, List.append_assoc, List.take_append_drop, List.length_append, hl, e2]

theorem archive_bytes_length_sum (rs : List Record) :
    (archive_bytes rs).length = (rs.map (fun q => (record_bytes q).length)).sum := by
  induction rs with
  | nil => rfl
  | cons r rs ih => simp [archive_bytes, ih]

theorem payload_offset_eq (pre : List Record) (r : Record) :
    payload_offset pre r = (archive_bytes pre).length + (16 + r.name.length) := by
  rw [payload_offset, archive_bytes_length_sum, header_bytes_length]

theorem fseek_frame {lim : Nat} (fp : FILE) (off : Int) (w : Whence) :
    (fseek lim fp off w).2.data = fp.data ∧ (fseek lim fp off w).2.append = fp.append := by
  unfold fseek
  cases w <;> dsimp only <;> split <;> simp

theorem read_header_frame (fp : FILE) (hdr : header) (r : Int) (hdr1 : header) (f1 : FILE)
    (h : read_header fp hdr = some (r, hdr1, f1)) :
    f1.data = fp.data ∧ f1.append = fp.append := by
  unfold read_header fread at h
  simp only at h
  split at h
  · simp only [Option.some.injEq, Prod.mk.injEq] at h
    rw [← h.2.2]
    exact ⟨rfl, rfl⟩
  · split at h
    · simp at h
    · split at h
      · simp only [Option.some.injEq, Prod.mk.injEq] at h
        rw [← h.2.2]
        exact ⟨rfl, rfl⟩
      · split at h <;>
        · simp only [Option.some.injEq, Prod.mk.injEq] at h
          rw [← h.2.2]
          exact ⟨rfl, rfl⟩

/-- The scan of `find_file` reads only: it leaves the bytes and the mode of the
stream as they were. -/
theorem find_file_frame {lim : Nat} (t : List Byte) (fuel : Nat) : ∀ (fp : FILE) (hdr : header) (rc : Int)
    (hdr1 : header) (f1 : FILE), find_file lim fuel fp hdr t = some (rc, hdr1, f1) →
    f1.data = fp.data ∧ f1.append = fp.append := by
  induction fuel with
  | zero => intro fp hdr rc hdr1 f1 h; simp [find_file] at h
  | succ fuel ih =>
    intro fp hdr rc hdr1 f1 h
    rw [find_file] at h
    rcases hrh : read_header fp hdr with _ | ⟨r, h2, f2⟩
    · rw [hrh] at h
      simp at h
    have hf := read_header_frame fp hdr r h2 f2 hrh
    rw [hrh] at h
    simp only at h
    split at h
    · split at h
      · simp only [Option.some.injEq, Prod.mk.injEq] at h
        rw [← h.2.2]
        exact hf
      · have hs := @fseek_frame lim f2 (to_long h2.file_size) .SEEK_CUR
        rcases hfs : fseek lim f2 (to_long h2.file_size) .SEEK_CUR with ⟨s, f3⟩
        rw [hfs] at h hs
        simp only at h hs
        split at h
        · simp only [Option.some.injEq, Prod.mk.injEq] at h
          rw [← h.2.2]
          exact ⟨hs.1.trans hf.1, hs.2.trans hf.2⟩
        · obtain ⟨e1, e2⟩ := ih f3 h2 rc hdr1 f1 h
          exact ⟨e1.trans (hs.1.trans hf.1), e2.trans (hs.2.trans hf.2)⟩
    · simp only [Option.some.injEq, Prod.mk.injEq] at h
      rw [← h.2.2]
      exact hf

/-- Copying into a stream in append mode only adds bytes at its end. -/
theorem read_write_loop_frame (fuel : Nat) : ∀ (A B : FILE) (bytes written : Nat) (n : Int)
    (A1 B1 : FILE), B.append = true →
    read_write_loop fuel A B bytes written = some (n, A1, B1) →
    B.data <+: B1.data ∧ B1.append = true := by
  induction fuel with
  | zero => intro A B bytes written n A1 B1 _ h; simp [read_write_loop] at h
  | succ fuel ih =>
    intro A B bytes written n A1 B1 hB h
    rw [read_write_loop] at h
    split at h
    · simp only [fread] at h
      rw [fwrite_append B _ hB] at h
      simp only [ne_eq, not_true_eq_false, if_false] at h
      obtain ⟨hp, hm⟩ := ih _ _ _ _ n A1 B1 (by simpa using hB) h
      exact ⟨(List.prefix_append _ _).trans hp, hm⟩
    · simp only [Option.some.injEq, Prod.mk.injEq] at h
      rw [← h.2.2]
      exact ⟨List.prefix_refl _, hB⟩

/-- A call of `append_file` on a stream in append mode only adds bytes at the
end of the archive. -/
theorem append_file_frame (fuel : Nat) (fs : FS) (farch : FILE) (filename : List Byte)
    (rc : Int) (f1 : FILE) (hm : farch.append = true)
    (h : append_file fuel fs farch filename = some (rc, f1)) :
    farch.data <+: f1.data ∧ f1.append = true := by
  unfold append_file at h
  split at h
  · simp only [Option.some.injEq, Prod.mk.injEq] at h
    rw [← h.2]
    exact ⟨List.prefix_refl _, hm⟩
  · split at h
    · simp only [Option.some.injEq, Prod.mk.injEq] at h
      rw [← h.2]
      exact ⟨List.prefix_refl _, hm⟩
    · dsimp only at h
      rw [fwrite_append farch _ hm] at h
      simp only [size_t_bytes_length, SIZEOF_SIZE_T, ne_eq, not_true_eq_false, if_false] at h
      rw [fwrite_append _ _ (by simpa using hm)] at h
      simp only [List.length_take, strlen, min_self, ne_eq, not_true_eq_false, if_false] at h
      rw [fwrite_append _ _ (by simpa using hm)] at h
      simp only [size_t_bytes_length, ne_eq, not_true_eq_false, if_false] at h
      split at h
      · simp at h
      · rename_i n A1 a4 hrw
        obtain ⟨hp, hmode⟩ := read_write_loop_frame fuel _ _ _ 0 n A1 a4 (by simpa using hm) hrw
        have hp' : farch.data <+: a4.data := by
          refine List.IsPrefix.trans ?_ hp
          simp only [List.append_assoc]
          exact List.prefix_append _ _
        split at h <;>
          (simp only [Option.some.injEq, Prod.mk.injEq] at h
           rw [← h.2]
           exact ⟨hp', hmode⟩)

theorem append_files_loop_frame {lim : Nat} (fuel : Nat) (fs : FS) : ∀ (files : List (List Byte))
    (farc : FILE) (hdr : header) (rc : Int) (f1 : FILE), farc.append = true →
    append_files_loop lim fuel fs files farc hdr = some (rc, f1) →
    farc.data <+: f1.data ∧ f1.append = true := by
  intro files
  induction files with
  | nil =>
    intro farc hdr rc f1 hm h
    simp only [append_files_loop, Option.some.injEq, Prod.mk.injEq] at h
    rw [← h.2]
    exact ⟨List.prefix_refl _, hm⟩
  | cons n rest ih =>
    intro farc hdr rc f1 hm h
    rw [append_files_loop] at h
    split at h
    · simp only [Option.some.injEq, Prod.mk.injEq] at h
      rw [← h.2]
      exact ⟨List.prefix_refl _, hm⟩
    · split at h
      · simp at h
      · rename_i r hdr1 f2 hfind
        obtain ⟨hd, hmo⟩ := find_file_frame n fuel farc hdr r hdr1 f2 hfind
        split at h
        · simp only [Option.some.injEq, Prod.mk.injEq] at h
          rw [← h.2, hd]
          exact ⟨List.prefix_refl _, by rw [hmo]; exact hm⟩
        · split at h
          · simp at h
          · rename_i ra f3 happ
            obtain ⟨hp, hm3⟩ := append_file_frame fuel fs f2 n ra f3 (by rw [hmo]; exact hm) happ
            rw [hd] at hp
            split at h
            · simp only [Option.some.injEq, Prod.mk.injEq] at h
              rw [← h.2]
              exact ⟨hp, hm3⟩
            · obtain ⟨hp2, hm4⟩ := ih f3 hdr1 rc f1 hm3 h
              exact ⟨hp.trans hp2, hm4⟩


/-- One turn of the loop of `append_files` once the scan for the name has
returned: either the batch is refused, or the file is appended and the loop
goes on with the cursor at the end of the archive. -/
theorem append_files_loop_after_find {lim : Nat} (fuel : Nat) (fs : FS) (n : List Byte)
    (rest : List (List Byte)) (farc : FILE) (hdr : header) (r : Int) (hdr1 : header) (f1 : FILE)
    (c : List Byte) (hn : CString n) (hsrc : fs n = some c) (hc : c.length < 2 ^ 63)
    (hsteps : copy_steps c.length ≤ fuel)
    (hfind : find_file lim fuel farc hdr n = some (r, hdr1, f1)) (hm : f1.append = true) :
    (∃ f, append_files_loop lim fuel fs (n :: rest) farc hdr = some (EXIT_FAILURE, f)) ∨
    (∃ f2, f2.append = true ∧ f2.data.drop f2.pos = [] ∧
      append_files_loop lim fuel fs (n :: rest) farc hdr
        = append_files_loop lim fuel fs rest f2 hdr1) := by
  have hacc : ¬ access fs n = -1 := by
    simp [access, cstr_eq_self _ hn.1, hsrc]
  have happ := append_file_eq fuel fs f1 n c hn hsrc hc hm
  rw [if_pos hsteps] at happ
  rw [append_files_loop]
  simp only [hacc, if_false, hfind, happ]
  by_cases hr : r > 0
  · exact Or.inl ⟨f1, by simp [hr]⟩
  · simp only [hr, if_false]
    by_cases hlt : c.length < 2 ^ 31
    · refine Or.inr ⟨(⟨f1.data ++ record_bytes ⟨n, c⟩,
        f1.data.length + (record_bytes ⟨n, c⟩).length, f1.append⟩ : FILE), hm, by simp, ?_⟩
      simp only [hlt, if_true, lt_irrefl, if_false]
    · refine Or.inl ⟨(⟨f1.data ++ record_bytes ⟨n, c⟩,
        f1.data.length + (record_bytes ⟨n, c⟩).length, f1.append⟩ : FILE), ?_⟩
      simp only [hlt, if_false]
      simp

/-- The loop of `append_files` returns when the cursor is at the end of the
archive. -/
theorem append_files_loop_at_end_returns {lim : Nat} (fuel : Nat) (fs : FS) (h1 : 1 ≤ fuel) :
    ∀ (files : List (List Byte)) (farc : FILE) (hdr : header),
    (∀ n ∈ files, CString n) →
    (∀ n ∈ files, ∀ c, fs n = some c → c.length < 2 ^ 63 ∧ copy_steps c.length ≤ fuel) →
    farc.append = true → farc.data.drop farc.pos = [] →
    ∃ rc f1, append_files_loop lim fuel fs files farc hdr = some (rc, f1) := by
  intro files
  induction files with
  | nil => intro farc hdr _ _ _ _; exact ⟨0, farc, rfl⟩
  | cons n rest ih =>
    intro farc hdr hns hfs hm hd
    have hn := hns n (List.mem_cons_self _ _)
    cases hsrc : fs n with
    | none =>
      refine ⟨0, farc, ?_⟩
      rw [append_files_loop]
      simp [access, cstr_eq_self _ hn.1, hsrc]
    | some c =>
      obtain ⟨hc, hsteps⟩ := hfs n (List.mem_cons_self _ _) c hsrc
      obtain ⟨k, rfl⟩ : ∃ k, fuel = k + 1 := ⟨fuel - 1, by omega⟩
      have hfind : find_file lim (k + 1) farc hdr n = some (0, hdr, farc) := by
        rw [find_file, read_header_eof farc hdr hd]
        simp
      rcases append_files_loop_after_find (k + 1) fs n rest farc hdr 0 hdr farc c hn hsrc hc
        hsteps hfind hm with ⟨f, e⟩ | ⟨f2, hm2, hd2, e⟩
      · exact ⟨_, _, e⟩
      · rw [e]
        exact ih f2 hdr (fun m hm' => hns m (List.mem_cons_of_mem _ hm'))
          (fun m hm' => hfs m (List.mem_cons_of_mem _ hm')) hm2 hd2

/-- On a well-formed archive `append_files` returns. -/
theorem append_files_returns {lim : Nat} (fuel : Nat) (fs : FS) (rs : List Record)
    (files : List (List Byte)) (hwf : WellFormed rs) (hns : ∀ n ∈ files, CString n)
    (hfs : ∀ n ∈ files, ∀ c, fs n = some c → c.length < 2 ^ 63 ∧ copy_steps c.length ≤ fuel)
    (hfuel : rs.length < fuel) :
    ∃ rc f1, append_files_loop lim fuel fs files
      { data := archive_bytes rs, pos := 0, append := true }
      { name_len := 0, name := [], file_size := 0 } = some (rc, f1) := by
  cases files with
  | nil => exact ⟨0, _, rfl⟩
  | cons n rest =>
    have hn := hns n (List.mem_cons_self _ _)
    have hcs : cstr n = n := cstr_eq_self n hn.1
    cases hsrc : fs n with
    | none =>
      refine ⟨0, { data := archive_bytes rs, pos := 0, append := true }, ?_⟩
      rw [append_files_loop]
      simp [access, hcs, hsrc]
    | some c =>
      obtain ⟨hc, hsteps⟩ := hfs n (List.mem_cons_self _ _) c hsrc
      have hfind : ∃ r hdr1 f1, find_file lim fuel
          { data := archive_bytes rs, pos := 0, append := true }
          { name_len := 0, name := [], file_size := 0 } n = some (r, hdr1, f1)
          ∧ f1.append = true := by
        by_cases hmem : n ∈ rs.map Record.name
        · obtain ⟨pre, r, post, hsplit, hr, hpre⟩ := exists_first_named rs n hmem
          have hpl : pre.length < rs.length := by rw [hsplit]; simp
          exact ⟨_, _, _, find_file_first rs pre post r n fuel _ _ hwf.1
            (by simpa using hwf.2) hsplit (by rw [hcs]; exact hr) (by rw [hcs]; exact hpre)
            (by simp) (by omega), rfl⟩
        · have habs : ∀ r ∈ rs, r.name ≠ cstr n := by
            intro r hr e
            rw [hcs] at e
            exact hmem (List.mem_map.mpr ⟨r, hr, e⟩)
          obtain ⟨hdr1, e⟩ := find_file_absent n rs fuel
            { data := archive_bytes rs, pos := 0, append := true }
            { name_len := 0, name := [], file_size := 0 } hwf.1 habs (by simp)
            (by simpa using hwf.2) hfuel
          exact ⟨_, _, _, e, rfl⟩
      obtain ⟨r, hdr1, f1, e, hm⟩ := hfind
      rcases append_files_loop_after_find fuel fs n rest _ _ r hdr1 f1 c hn hsrc hc
        hsteps e hm with ⟨f, e2⟩ | ⟨f2, hm2, hd2, e2⟩
      · exact ⟨_, _, e2⟩
      · rw [e2]
        exact append_files_loop_at_end_returns fuel fs (by omega) rest f2 hdr1
          (fun m hm' => hns m (List.mem_cons_of_mem _ hm'))
          (fun m hm' => hfs m (List.mem_cons_of_mem _ hm')) hm2 hd2

/-- What a successful `read_header` has read. -/
theorem read_header_success (fp : FILE) (hdr hdr1 : header) (f1 : FILE)
    (h : read_header fp hdr = some (0, hdr1, f1)) :
    f1.data = fp.data ∧ f1.append = fp.append ∧ f1.pos = fp.pos + 16 + hdr1.name_len ∧
    f1.pos ≤ fp.data.length ∧
    hdr1.file_size = le_value ((fp.data.drop (fp.pos + 8 + hdr1.name_len)).take 8) := by
  unfold read_header fread at h
  simp only [SIZEOF_SIZE_T] at h
  split at h
  · simp at h
  · rename_i h1
    split at h
    · simp at h
    · split at h
      · simp at h
      · rename_i h2
        split at h
        · simp at h
        · rename_i h3
          simp only [ne_eq, Decidable.not_not] at h1 h2 h3
          simp only [Option.some.injEq, Prod.mk.injEq, true_and] at h
          obtain ⟨hh, hf⟩ := h
          subst hh hf
          simp only [h1] at h2 h3 ⊢
          simp only [h2] at h3 ⊢
          have h3' := h3
          simp only [List.length_take, List.length_drop] at h3'
          refine ⟨trivial, trivial, by omega, by omega, trivial⟩

/-- The header passed to `read_header` matters only for the header handed
back by a failed call. -/
theorem read_header_change_hdr (fp : FILE) (hdr hdr' : header) :
    read_header fp hdr' =
      (read_header fp hdr).map (fun x => (x.1, (if x.1 = 0 then x.2.1 else hdr'), x.2.2)) := by
  unfold read_header
  simp only
  split
  · simp
  · split
    · simp
    · split
      · simp
      · split <;> simp

/-- One iteration of a scan over a header whose size is below `2^63`: the seek
either fails or leaves the cursor at least 16 bytes beyond the start of the
header. -/
theorem scan_step {lim : Nat} (fp : FILE) (hdr hdr1 : header) (f1 : FILE)
    (h : read_header fp hdr = some (0, hdr1, f1)) (hS : hdr1.file_size < 2 ^ 63) :
    fp.pos + 16 ≤ fp.data.length ∧
    (fseek lim f1 (to_long hdr1.file_size) .SEEK_CUR = (-1, f1) ∨
      ∃ f2, fseek lim f1 (to_long hdr1.file_size) .SEEK_CUR = (0, f2) ∧ f2.data = fp.data ∧
        f2.append = fp.append ∧ fp.pos + 16 ≤ f2.pos) := by
  obtain ⟨hd, ha, hp, hle, _⟩ := read_header_success fp hdr hdr1 f1 h
  refine ⟨by omega, ?_⟩
  by_cases hov : f1.pos + hdr1.file_size < 2 ^ 63 ∧
      (f1.pos + hdr1.file_size ≤ f1.data.length ∨ f1.pos + hdr1.file_size ≤ lim)
  · right
    exact ⟨_, fseek_cur_size f1 _ hov.1 hov.2, hd, ha, by simp only; omega⟩
  · left
    exact fseek_cur_refused f1 _ hS (by omega)

theorem list_files_loop_terminates {lim : Nat} (fuel : Nat) : ∀ (fp : FILE) (hdr : header)
    (out : List Byte),
    scan_sizes_ok lim none fuel fp = true → (fp.data.length - fp.pos) / 16 + 2 ≤ fuel →
    ∃ res, list_files_loop lim fuel fp hdr out = some res := by
  induction fuel with
  | zero => intro fp hdr out _ h; omega
  | succ k ih =>
    intro fp hdr out hs hf
    rw [scan_sizes_ok, read_header_change_hdr fp hdr] at hs
    rw [list_files_loop]
    rcases hrh : read_header fp hdr with _ | ⟨r, hdr1, f1⟩
    · rw [hrh] at hs
      simp at hs
    rw [hrh] at hs
    simp only [Option.map_some'] at hs
    by_cases hr : r = 0
    · subst hr
      simp only [if_true, name_matches, Bool.false_eq_true, if_false, Bool.and_eq_true,
        decide_eq_true_eq] at hs
      obtain ⟨hlen, hseek⟩ := @scan_step lim fp hdr hdr1 f1 hrh hs.1
      simp only [if_true]
      rcases hseek with e | ⟨f2, e, hd, _, hp⟩
      · rw [e]
        simp
      · rw [e]
        have h01 : ¬ ((0 : Int) = -1) := by decide
        rw [e] at hs
        simp only [h01, if_false] at hs ⊢
        exact ih f2 hdr1 _ hs.2 (by rw [hd]; omega)
    · simp [hr]

theorem find_file_terminates {lim : Nat} (t : List Byte) (fuel : Nat) : ∀ (fp : FILE)
    (hdr : header),
    scan_sizes_ok lim (some t) fuel fp = true → (fp.data.length - fp.pos) / 16 + 2 ≤ fuel →
    ∃ res, find_file lim fuel fp hdr t = some res := by
  induction fuel with
  | zero => intro fp hdr _ h; omega
  | succ k ih =>
    intro fp hdr hs hf
    rw [scan_sizes_ok, read_header_change_hdr fp hdr] at hs
    rw [find_file]
    rcases hrh : read_header fp hdr with _ | ⟨r, hdr1, f1⟩
    · rw [hrh] at hs
      simp at hs
    rw [hrh] at hs
    simp only [Option.map_some'] at hs
    by_cases hr : r = 0
    · subst hr
      simp only [if_true]
      by_cases hc : strcmp hdr1.name t = 0
      · simp [hc]
      · simp only [if_true, name_matches, hc, decide_False, Bool.false_eq_true, if_false,
          Bool.and_eq_true, decide_eq_true_eq] at hs
        obtain ⟨hlen, hseek⟩ := @scan_step lim fp hdr hdr1 f1 hrh hs.1
        simp only [hc, if_false]
        rcases hseek with e | ⟨f2, e, hd, _, hp⟩
        · rw [e]
          simp
        · rw [e]
          have h01 : ¬ ((0 : Int) = -1) := by decide
          rw [e] at hs
          simp only [h01, if_false] at hs ⊢
          exact ih f2 hdr1 hs.2 (by rw [hd]; omega)
    · simp [hr]

/-- The scan of a well-formed archive decodes the sizes of its records: it
meets the condition of `scan_sizes_ok`, whatever the payloads hold. -/
theorem scan_sizes_ok_records {lim : Nat} (t : Option (List Byte)) : ∀ (rs : List Record)
    (n : Nat) (fp : FILE),
    (∀ r ∈ rs, CString r.name) → fp.data.drop fp.pos = archive_bytes rs →
    fp.pos + (archive_bytes rs).length < 2 ^ 63 → scan_sizes_ok lim t n fp = true := by
  intro rs
  induction rs with
  | nil =>
    intro n fp _ h _
    cases n with
    | zero => rfl
    | succ n =>
      rw [scan_sizes_ok, read_header_eof fp _ (by simpa [archive_bytes] using h)]
      simp
  | cons r rs ih =>
    intro n fp hn h hb
    cases n with
    | zero => rfl
    | succ n =>
      have h' : fp.data.drop fp.pos = record_bytes r ++ archive_bytes rs := by
        simpa [archive_bytes] using h
      have hin := drop_bound _ _ _ _ h' (by rw [record_bytes_length]; omega)
      simp only [archive_bytes, List.length_append] at hb
      rw [record_bytes_length] at hb hin
      rw [scan_sizes_ok, read_header_record fp _ r (archive_bytes rs)
        (hn r (List.mem_cons_self _ _)) (by omega) h']
      simp only [if_true]
      rw [fseek_cur_size _ _ (by simp [Record.hdr]; omega) (by simp [Record.hdr]; omega)]
      have h01 : ¬ ((0 : Int) = -1) := by decide
      have hsz : r.hdr.file_size < 2 ^ 63 := by simp only [Record.hdr]; omega
      simp only [h01, if_false, hsz, decide_True, Bool.true_and]
      split
      · rfl
      apply ih n _ (fun q hq => hn q (List.mem_cons_of_mem _ hq))
      · simp only [Record.hdr]
        rw [show fp.pos + (16 + r.name.length) + r.payload.length
          = fp.pos + (record_bytes r).length by rw [record_bytes_length]; omega,
          ← List.drop_drop, h', List.drop_left]
      · simp only [Record.hdr]
        omega

/-- The scan of `looping_archive` comes back to offset 0 after every record. -/
theorem looping_archive_step {lim : Nat} (hdr : header) :
    read_header { data := looping_archive, pos := 0, append := false } hdr
      = some (0, { name_len := 0, name := [], file_size := 2 ^ 64 - 16 },
          { data := looping_archive, pos := 16, append := false }) ∧
    fseek lim { data := looping_archive, pos := 16, append := false } (to_long (2 ^ 64 - 16))
        .SEEK_CUR = (0, { data := looping_archive, pos := 0, append := false }) := by
  constructor
  · have := read_header_ok { data := looping_archive, pos := 0, append := false } hdr []
      (2 ^ 64 - 16) [] (by decide) (by decide) (by simp [looping_archive])
    simpa using this
  · have hl : to_long (2 ^ 64 - 16) = -16 := by decide
    have hlen : looping_archive.length = 16 := by decide
    unfold fseek
    simp only [hl, hlen]
    have h1 : ¬ ((((16 : Nat) : Int) + -16 < 0) ∨ ((2 : Int) ^ 63 ≤ ((16 : Nat) : Int) + -16) ∨
        ((((16 : Nat) : Int) < ((16 : Nat) : Int) + -16) ∧ ((lim : Int) < ((16 : Nat) : Int) + -16))) := by
      omega
    simp only [h1, if_false]
    rfl

theorem list_files_loop_looping {lim : Nat} (fuel : Nat) : ∀ (hdr : header) (out : List Byte),
    list_files_loop lim fuel { data := looping_archive, pos := 0, append := false } hdr out = none := by
  induction fuel with
  | zero => intro hdr out; rfl
  | succ k ih =>
    intro hdr out
    have h01 : ¬ ((0 : Int) = -1) := by decide
    rw [list_files_loop, (@looping_archive_step lim hdr).1]
    simp only [if_true, (@looping_archive_step lim _).2, h01, if_false]
    exact ih _ _

theorem find_file_looping {lim : Nat} (fuel : Nat) : ∀ (hdr : header),
    find_file lim fuel { data := looping_archive, pos := 0, append := false } hdr (ascii "x")
      = none := by
  induction fuel with
  | zero => intro hdr; rfl
  | succ k ih =>
    intro hdr
    have h01 : ¬ ((0 : Int) = -1) := by decide
    have hc : ¬ strcmp [] (ascii "x") = 0 := by decide
    rw [find_file, (@looping_archive_step lim hdr).1]
    simp only [if_true, hc, if_false, (@looping_archive_step lim _).2, h01]
    exact ih _

/-- Appending a source file of `2^31` bytes to an empty archive. -/
theorem append_file_big_payload (p : List Byte) (hp : p.length = 2 ^ 31) :
    (∃ farch1, append_file (2 ^ 22) (FS.empty.write (ascii "big") p)
        { data := [], pos := 0, append := true } (ascii "big") = some (-1, farch1) ∧
      farch1.data = record_bytes ⟨ascii "big", p⟩) ∧
    (∃ A1 B1, read_write (2 ^ 22) { data := p, pos := 0, append := false }
        { data := [], pos := 0, append := false } (2 ^ 31) = some (-2147483648, A1, B1) ∧
      B1.data = p ∧ A1.pos = 2 ^ 31) ∧
    to_size_t (-2147483648) ≠ 2 ^ 31 := by
  have hsteps : copy_steps p.length ≤ 2 ^ 22 := by
    rw [hp]; decide
  refine ⟨?_, ?_, by decide⟩
  · have happ := append_file_eq (2 ^ 22) (FS.empty.write (ascii "big") p)
      { data := [], pos := 0, append := true } (ascii "big") p (by decide)
      (by simp [FS.write]) (by rw [hp]; norm_num) rfl
    rw [if_pos hsteps, if_neg (by rw [hp]; exact lt_irrefl _)] at happ
    exact ⟨_, happ, by simp⟩
  · have hrw := read_write_all (2 ^ 22) { data := p, pos := 0, append := false }
      { data := [], pos := 0, append := false } p [] (by simp) rfl
    rw [if_pos hsteps, hp] at hrw
    have hti : to_int (((2 ^ 31 : Nat)) : Int) = -2147483648 := by decide
    rw [hti] at hrw
    exact ⟨_, _, hrw, by simp, by simp⟩

theorem to_long_of_ge (n : Nat) (h1 : 2 ^ 63 ≤ n) (h2 : n < 2 ^ 64) :
    to_long n = (n : Int) - 2 ^ 64 := by
  unfold to_long
  rw [Nat.mod_eq_of_lt h2, if_neg (by omega)]

/-- A relative seek by a size that is negative as a `long` and leads in front
of the start of the file. -/
theorem fseek_cur_negative {lim : Nat} (fp : FILE) (n : Nat) (h1 : 2 ^ 63 ≤ n)
    (h2 : fp.pos + n < 2 ^ 64) : fseek lim fp (to_long n) .SEEK_CUR = (-1, fp) := by
  unfold fseek
  rw [to_long_of_ge n h1 (by omega)]
  have h : (fp.pos : Int) + ((n : Int) - 2 ^ 64) < 0 := by omega
  simp only [h, true_or, if_true]

/-- The scans over records followed by a final header that declares more
payload than is left: what happens is decided by `fseek` alone. -/
theorem truncated_payload_outcome (lim : Nat) (rs : List Record) (name tail t : List Byte)
    (S fuel : Nat)
    (hnames : ∀ r ∈ rs, CString r.name) (hname : CString name)
    (htrunc : tail.length < S)
    (hS : S < 2 ^ 63 ∨ (archive_bytes rs).length + (16 + name.length) + S < 2 ^ 64)
    (hfile : (archive_bytes rs ++ (header_bytes name S ++ tail)).length < 2 ^ 63)
    (ht : CString t) (habs : name ≠ t ∧ ∀ r ∈ rs, r.name ≠ t)
    (hfuel : rs.length + 2 ≤ fuel) :
    list_files lim fuel (some (archive_bytes rs ++ (header_bytes name S ++ tail)))
      = some (if (archive_bytes rs).length + (16 + name.length) + S ≤ lim ∧
            (archive_bytes rs).length + (16 + name.length) + S < 2 ^ 63
          then EXIT_SUCCESS else EXIT_FAILURE,
          (rs.map record_line).flatten
            ++ (name ++ ascii " of size " ++ ascii (Nat.repr S) ++ ascii "\n")) ∧
    (∃ hdr1, find_file lim fuel
        { data := archive_bytes rs ++ (header_bytes name S ++ tail), pos := 0, append := false }
        { name_len := 0, name := [], file_size := 0 } t
      = some (if (archive_bytes rs).length + (16 + name.length) + S ≤ lim ∧
            (archive_bytes rs).length + (16 + name.length) + S < 2 ^ 63
          then 0 else -1, hdr1,
          { data := archive_bytes rs ++ (header_bytes name S ++ tail),
            pos := if (archive_bytes rs).length + (16 + name.length) + S ≤ lim ∧
                (archive_bytes rs).length + (16 + name.length) + S < 2 ^ 63
              then (archive_bytes rs).length + (16 + name.length) + S
              else (archive_bytes rs).length + (16 + name.length),
            append := false })) ∧
    (archive_bytes rs ++ (header_bytes name S ++ tail)).length
      < (archive_bytes rs).length + (16 + name.length) + S := by
  obtain ⟨k, rfl⟩ : ∃ k, fuel = (k + 2) + rs.length := ⟨fuel - rs.length - 2, by omega⟩
  have hc : cstr t = t := cstr_eq_self t ht.1
  have hlen : (archive_bytes rs ++ (header_bytes name S ++ tail)).length
      < (archive_bytes rs).length + (16 + name.length) + S := by
    simp only [List.length_append, header_bytes_length]
    omega
  have hlen' : (archive_bytes rs ++ (header_bytes name S ++ tail)).length
      = (archive_bytes rs).length + (16 + name.length) + tail.length := by
    simp only [List.length_append, header_bytes_length]
    omega
  rw [hlen'] at hfile
  have hdrop : ∀ (b : Bool),
      ({ data := archive_bytes rs ++ (header_bytes name S ++ tail),
         pos := 0 + (archive_bytes rs).length, append := b } : FILE).data.drop
      ({ data := archive_bytes rs ++ (header_bytes name S ++ tail),
         pos := 0 + (archive_bytes rs).length, append := b } : FILE).pos
      = header_bytes name S ++ tail := by
    intro b
    simp
  have h01 : ¬ ((0 : Int) = -1) := by decide
  have hcmp : ¬ strcmp name t = 0 := by
    rw [strcmp_eq_zero_iff, cstr_eq_self _ hname.1, hc]
    exact habs.1
  have hrefused : ¬ ((archive_bytes rs).length + (16 + name.length) + S ≤ lim ∧
        (archive_bytes rs).length + (16 + name.length) + S < 2 ^ 63) →
      fseek lim
        (⟨archive_bytes rs ++ (header_bytes name S ++ tail),
          0 + (archive_bytes rs).length + (16 + name.length), false⟩ : FILE)
        (to_long S) .SEEK_CUR
      = (-1, (⟨archive_bytes rs ++ (header_bytes name S ++ tail),
          0 + (archive_bytes rs).length + (16 + name.length), false⟩ : FILE)) := by
    intro hok
    by_cases hneg : S < 2 ^ 63
    · exact fseek_cur_refused _ _ hneg (by simp only; omega)
    · exact fseek_cur_negative _ _ (by omega) (by simp only; omega)
  have hS64 : S < 2 ^ 64 := by omega
  obtain ⟨hdrL, eL⟩ := @list_files_loop_over lim rs (k + 2)
    { data := archive_bytes rs ++ (header_bytes name S ++ tail), pos := 0, append := false }
    { name_len := 0, name := [], file_size := 0 } [] (header_bytes name S ++ tail) hnames
    (by simp) (by simp only; omega)
  obtain ⟨hdrF, eF⟩ := @find_file_over lim t rs (k + 2)
    { data := archive_bytes rs ++ (header_bytes name S ++ tail), pos := 0, append := false }
    { name_len := 0, name := [], file_size := 0 } (header_bytes name S ++ tail) hnames
    (by rw [hc]; exact habs.2) (by simp) (by simp only; omega)
  refine ⟨?_, ?_, hlen⟩
  · simp only [list_files, fopen_archive_r, Option.map_some']
    rw [eL, list_files_loop, read_header_ok _ hdrL name S tail hname.2 hS64 (hdrop false)]
    simp only [if_true]
    by_cases hok : (archive_bytes rs).length + (16 + name.length) + S ≤ lim ∧
        (archive_bytes rs).length + (16 + name.length) + S < 2 ^ 63
    · rw [if_pos hok, fseek_cur_size _ _ (by simp only; omega) (Or.inr (by simp only; omega))]
      simp only [h01, if_false]
      rw [list_files_loop, read_header_past_end _ _ (by simp only; omega)]
      simp [list_line, cstr_eq_self _ hname.1, listing, List.append_assoc]
    · rw [if_neg hok, hrefused hok]
      simp [list_line, cstr_eq_self _ hname.1, listing, List.append_assoc]
  · rw [eF, find_file, read_header_ok _ hdrF name S tail hname.2 hS64 (hdrop false)]
    simp only [if_true, hcmp, if_false]
    refine ⟨{ name_len := name.length, name := name, file_size := S }, ?_⟩
    by_cases hok : (archive_bytes rs).length + (16 + name.length) + S ≤ lim ∧
        (archive_bytes rs).length + (16 + name.length) + S < 2 ^ 63
    · rw [if_pos hok, if_pos hok,
        fseek_cur_size _ _ (by simp only; omega) (Or.inr (by simp only; omega))]
      simp only [h01, if_false]
      rw [find_file, read_header_past_end _ _ (by simp only; omega)]
      simp [Nat.add_assoc]
    · rw [if_neg hok, if_neg hok, hrefused hok]
      simp

/-- Claim C2 (scan determinism).  On an archive built by `N` successful calls
of `append_file` from the empty archive, `list_files` returns success and
prints one line for each appended file, in append order, each made of the
name, the text ` of size `, the content length in decimal and a newline. -/
theorem list_files_of_appended (lim : Nat) (rs : List Record) (arc : List Byte) (fuel : Nat)
    (h : Appended rs arc) (hfile : arc.length < 2 ^ 63) (hfuel : rs.length < fuel) :
    list_files lim fuel (some arc) = some (EXIT_SUCCESS, (rs.map record_line).flatten) ∧
      (rs.map record_line).length = rs.length := by
  obtain ⟨harc, hrs⟩ := h.bytes
  subst harc
  refine ⟨?_, List.length_map _ _⟩
  simp only [list_files, fopen_archive_r, Option.map_some']
  rw [list_files_loop_records rs fuel _ _ _ (fun r hr => (hrs r hr).1) (by simp)
    (by simpa using hfile) hfuel]
  simp [listing]

theorem list_files_of_appended_witness :
    list_files (2 ^ 40) 3 (some (archive_bytes [⟨ascii "a", [1, 2, 3]⟩, ⟨ascii "bc", []⟩]))
        = some (EXIT_SUCCESS, ascii "a of size 3\nbc of size 0\n") ∧
      ([⟨ascii "a", [1, 2, 3]⟩, (⟨ascii "bc", []⟩ : Record)].map record_line).length = 2 :=
  list_files_of_appended (2 ^ 40) [⟨ascii "a", [1, 2, 3]⟩, ⟨ascii "bc", []⟩]
    (archive_bytes [⟨ascii "a", [1, 2, 3]⟩, ⟨ascii "bc", []⟩]) 3
    (Appended.step 2 ((FS.empty.write (ascii "a") [1, 2, 3]).write (ascii "bc") [])
      ⟨record_bytes ⟨ascii "a", [1, 2, 3]⟩, 0, true⟩
      ⟨archive_bytes [⟨ascii "a", [1, 2, 3]⟩, ⟨ascii "bc", []⟩], 38, true⟩
      (ascii "bc") [] 
      (Appended.step 2 (FS.empty.write (ascii "a") [1, 2, 3]) ⟨[], 0, true⟩
        ⟨record_bytes ⟨ascii "a", [1, 2, 3]⟩, 20, true⟩ (ascii "a") [1, 2, 3]
        Appended.empty rfl rfl (by decide) rfl (by decide) (by decide))
      rfl rfl (by decide) rfl (by decide) (by decide))
    (by decide) (by decide)

/-- Claim C3 (on-disk layout).  A successful `append_file` of a file named by a
C string of length `L` with `S` bytes of content extends the archive by the
8 bytes of `L` (least significant first), the `L` bytes of the name, the 8
bytes of `S` and the `S` content bytes, `2 * sizeof(size_t) + L + S` bytes in
all; the call is successful whenever `S < 2^31`. -/
theorem append_file_layout (fuel : Nat) (fs : FS) (farch : FILE) (name content : List Byte)
    (hname : CString name) (hsrc : fs name = some content) (hsz : content.length < 2 ^ 63)
    (hmode : farch.append = true) :
    (∀ farch1, append_file fuel fs farch name = some (0, farch1) →
      farch1.data = farch.data ++ (size_t_bytes name.length ++ name
        ++ size_t_bytes content.length ++ content) ∧
      farch1.data.length
        = farch.data.length + (2 * SIZEOF_SIZE_T + name.length + content.length)) ∧
    (content.length < 2 ^ 31 → copy_steps content.length ≤ fuel →
      ∃ farch1, append_file fuel fs farch name = some (0, farch1)) ∧
    (size_t_bytes name.length).length = SIZEOF_SIZE_T ∧
    le_value (size_t_bytes name.length) = name.length ∧
    (size_t_bytes content.length).length = SIZEOF_SIZE_T ∧
    le_value (size_t_bytes content.length) = content.length := by
  have e := append_file_eq fuel fs farch name content hname hsrc hsz hmode
  refine ⟨?_, ?_, size_t_bytes_length _, le_value_size_t_bytes _ (by have := hname.2; omega),
    size_t_bytes_length _, le_value_size_t_bytes _ (by omega)⟩
  · intro farch1 h
    rw [e] at h
    split at h
    · simp only [Option.some.injEq, Prod.mk.injEq] at h
      rw [← h.2]
      simp only [record_bytes, header_bytes, List.length_append, size_t_bytes_length,
        SIZEOF_SIZE_T, List.append_assoc, true_and]
      omega
    · simp at h
  · intro hlt hf
    rw [e, if_pos hf, if_pos hlt]
    exact ⟨_, rfl⟩

theorem append_file_layout_witness :
    (∀ farch1, append_file 2 (FS.empty.write (ascii "ab") [9, 8, 7]) ⟨[1], 0, true⟩ (ascii "ab")
        = some (0, farch1) →
      farch1.data = [1] ++ (size_t_bytes 2 ++ ascii "ab" ++ size_t_bytes 3 ++ [9, 8, 7]) ∧
      farch1.data.length = 1 + (2 * SIZEOF_SIZE_T + 2 + 3)) ∧
    ((3 : Nat) < 2 ^ 31 → copy_steps 3 ≤ 2 →
      ∃ farch1, append_file 2 (FS.empty.write (ascii "ab") [9, 8, 7]) ⟨[1], 0, true⟩ (ascii "ab")
        = some (0, farch1)) ∧
    (size_t_bytes 2).length = SIZEOF_SIZE_T ∧ le_value (size_t_bytes 2) = 2 ∧
    (size_t_bytes 3).length = SIZEOF_SIZE_T ∧ le_value (size_t_bytes 3) = 3 :=
  append_file_layout 2 (FS.empty.write (ascii "ab") [9, 8, 7]) ⟨[1], 0, true⟩ (ascii "ab")
    [9, 8, 7] (by decide) rfl (by decide) rfl

/-- Claim C4 (scenario).  From an empty archive and a file `x.txt` holding the
two bytes `hi`, `append_files` succeeds and leaves a single record with
`name_len = 5`, name `x.txt`, `file_size = 2` and payload `hi`; `list_files`
prints `x.txt of size 2`; `extract_files` for `x.txt`, in a directory that lets
`x.txt` be created, succeeds and writes `x.txt` with content `hi`. -/
theorem scenario_x_txt (lim fuel : Nat) (dir : FS)
    (hdir : dir.can_create (ascii "x.txt") = true) :
    append_files lim (fuel + 2) (some []) (FS.empty.write (ascii "x.txt") (ascii "hi"))
        [ascii "x.txt"]
      = some (EXIT_SUCCESS, size_t_bytes 5 ++ ascii "x.txt" ++ size_t_bytes 2 ++ ascii "hi") ∧
    read_header ⟨size_t_bytes 5 ++ ascii "x.txt" ++ size_t_bytes 2 ++ ascii "hi", 0, false⟩
        { name_len := 0, name := [], file_size := 0 }
      = some (0, { name_len := 5, name := ascii "x.txt", file_size := 2 },
          ⟨size_t_bytes 5 ++ ascii "x.txt" ++ size_t_bytes 2 ++ ascii "hi", 21, false⟩) ∧
    size_t_bytes 5 ++ ascii "x.txt" ++ size_t_bytes 2 ++ ascii "hi"
      = archive_bytes [⟨ascii "x.txt", ascii "hi"⟩] ∧
    list_files lim (fuel + 2)
        (some (size_t_bytes 5 ++ ascii "x.txt" ++ size_t_bytes 2 ++ ascii "hi"))
      = some (EXIT_SUCCESS, ascii "x.txt of size 2\n") ∧
    ∃ dir1, extract_files lim (fuel + 2)
        (some (size_t_bytes 5 ++ ascii "x.txt" ++ size_t_bytes 2 ++ ascii "hi")) dir
        [ascii "x.txt"] = some (EXIT_SUCCESS, dir1) ∧
      dir1 (ascii "x.txt") = some (ascii "hi") ∧ ∀ n, n ≠ ascii "x.txt" → dir1 n = dir n := by
  have hc : cstr (ascii "x.txt") = ascii "x.txt" := by decide
  have hopen := fopen_w_ok dir (ascii "x.txt") (by rw [hc]; exact hdir)
  rw [hc] at hopen
  have hfind : find_file lim (fuel + 2)
      ⟨size_t_bytes 5 ++ ascii "x.txt" ++ size_t_bytes 2 ++ ascii "hi", 0, false⟩
      { name_len := 0, name := [], file_size := 0 } (ascii "x.txt")
      = some (21, { name_len := 5, name := ascii "x.txt", file_size := 2 },
          ⟨size_t_bytes 5 ++ ascii "x.txt" ++ size_t_bytes 2 ++ ascii "hi", 21, false⟩) := rfl
  have hseek : fseek lim
      ⟨size_t_bytes 5 ++ ascii "x.txt" ++ size_t_bytes 2 ++ ascii "hi", 21, false⟩ 21 .SEEK_SET
      = (0, ⟨size_t_bytes 5 ++ ascii "x.txt" ++ size_t_bytes 2 ++ ascii "hi", 21, false⟩) := rfl
  have hrw : read_write (fuel + 2)
      ⟨size_t_bytes 5 ++ ascii "x.txt" ++ size_t_bytes 2 ++ ascii "hi", 21, false⟩
      ⟨[], 0, false⟩ 2
      = some (2, ⟨size_t_bytes 5 ++ ascii "x.txt" ++ size_t_bytes 2 ++ ascii "hi", 23, false⟩,
          ⟨ascii "hi", 2, false⟩) := rfl
  have h21 : (21 : Int) > 0 := by decide
  have h01 : ¬ ((0 : Int) = -1) := by decide
  have hz : to_size_t 2 = 2 := by decide
  refine ⟨rfl, by decide, by decide, rfl,
    ⟨(dir.write (ascii "x.txt") []).write (ascii "x.txt") (ascii "hi"), ?_, ?_, ?_⟩⟩
  · simp only [extract_files, fopen_archive_r, Option.map_some', extract_files_loop, hfind, h21,
      if_true, hopen, hseek, h01, if_false, hrw, hz, ne_eq, not_true_eq_false, fclose_w, hc]
  · simp [FS.write_files]
  · intro n hn
    simp [FS.write_files, hn]

theorem scenario_x_txt_witness :
    FS.empty.can_create (ascii "x.txt") = true ∧
    (append_files (2 ^ 40) 2 (some []) (FS.empty.write (ascii "x.txt") (ascii "hi"))
        [ascii "x.txt"]
      = some (EXIT_SUCCESS, size_t_bytes 5 ++ ascii "x.txt" ++ size_t_bytes 2 ++ ascii "hi") ∧
    read_header ⟨size_t_bytes 5 ++ ascii "x.txt" ++ size_t_bytes 2 ++ ascii "hi", 0, false⟩
        { name_len := 0, name := [], file_size := 0 }
      = some (0, { name_len := 5, name := ascii "x.txt", file_size := 2 },
          ⟨size_t_bytes 5 ++ ascii "x.txt" ++ size_t_bytes 2 ++ ascii "hi", 21, false⟩) ∧
    size_t_bytes 5 ++ ascii "x.txt" ++ size_t_bytes 2 ++ ascii "hi"
      = archive_bytes [⟨ascii "x.txt", ascii "hi"⟩] ∧
    list_files (2 ^ 40) 2
        (some (size_t_bytes 5 ++ ascii "x.txt" ++ size_t_bytes 2 ++ ascii "hi"))
      = some (EXIT_SUCCESS, ascii "x.txt of size 2\n") ∧
    ∃ dir1, extract_files (2 ^ 40) 2
        (some (size_t_bytes 5 ++ ascii "x.txt" ++ size_t_bytes 2 ++ ascii "hi")) FS.empty
        [ascii "x.txt"] = some (EXIT_SUCCESS, dir1) ∧
      dir1 (ascii "x.txt") = some (ascii "hi") ∧
      ∀ n, n ≠ ascii "x.txt" → dir1 n = FS.empty n) :=
  ⟨by decide, scenario_x_txt (2 ^ 40) 0 FS.empty (by decide)⟩

/-- Claim C5, evaluated where it fails.  The archive holds `a` then `b`;
`extract_files` asked for `b` then `a` extracts `b`, then scans for `a` from
the cursor it left behind `b`, reports `a` as not found and returns failure,
although `a` is a record of the archive; asked for `a` then `b` it succeeds. -/
theorem extract_files_out_of_order (lim : Nat) (fuel : Nat) :
    (∃ dir, extract_files lim (fuel + 3)
        (some (archive_bytes [⟨ascii "a", ascii "1"⟩, ⟨ascii "b", ascii "22"⟩])) FS.empty
        [ascii "b", ascii "a"] = some (EXIT_FAILURE, dir) ∧
      dir (ascii "a") = none ∧ dir (ascii "b") = some (ascii "22")) ∧
    (∃ dir, extract_files lim (fuel + 3)
        (some (archive_bytes [⟨ascii "a", ascii "1"⟩, ⟨ascii "b", ascii "22"⟩])) FS.empty
        [ascii "a", ascii "b"] = some (EXIT_SUCCESS, dir) ∧
      dir (ascii "a") = some (ascii "1") ∧ dir (ascii "b") = some (ascii "22")) :=
  ⟨⟨(FS.empty.write (ascii "b") []).write (ascii "b") (ascii "22"), rfl, by decide, by decide⟩,
   ⟨(((FS.empty.write (ascii "a") []).write (ascii "a") (ascii "1")).write (ascii "b") []).write
      (ascii "b") (ascii "22"), rfl, by decide, by decide⟩⟩

/-- Claim C6, evaluated where it fails.  With a source file `x` on disk,
`append_files` on the batch `x, x` and an empty archive returns success and
leaves two records named `x`; on an archive that holds `a`, the batch `b, a`
returns success and leaves a second record named `a`: after the first append
the cursor is at the end of the archive, so the scan for the next name reads
no record at all. -/
theorem append_files_duplicate_in_batch (lim : Nat) (fuel : Nat) :
    append_files lim (fuel + 2) (some []) (FS.empty.write (ascii "x") (ascii "hi"))
        [ascii "x", ascii "x"]
      = some (EXIT_SUCCESS, archive_bytes [⟨ascii "x", ascii "hi"⟩, ⟨ascii "x", ascii "hi"⟩]) ∧
    append_files lim (fuel + 2) (some (archive_bytes [⟨ascii "a", ascii "1"⟩]))
        ((FS.empty.write (ascii "a") (ascii "1")).write (ascii "b") (ascii "2"))
        [ascii "b", ascii "a"]
      = some (EXIT_SUCCESS, archive_bytes
          [⟨ascii "a", ascii "1"⟩, ⟨ascii "b", ascii "2"⟩, ⟨ascii "a", ascii "1"⟩]) ∧
    append_files lim (fuel + 2) (some (archive_bytes [⟨ascii "a", ascii "1"⟩]))
        ((FS.empty.write (ascii "a") (ascii "1")).write (ascii "b") (ascii "2"))
        [ascii "a", ascii "b"]
      = some (EXIT_FAILURE, archive_bytes [⟨ascii "a", ascii "1"⟩]) :=
  ⟨rfl, rfl, rfl⟩

/-- Claim C7, evaluated where it fails.  In `big_archive big_payload` the
payload of record `b` starts at offset `2^31 + 34`; `find_file` hands that
offset back through its `int` result, where it is a negative number, so the
test `> 0` of `append_files` takes the archived name `b` for a new one: a
second record `b` is appended and the call returns success. -/
theorem append_files_duplicate_beyond_int (lim : Nat) :
    WellFormed (big_archive big_payload) ∧ CString (ascii "b") ∧
    ((FS.empty.write (ascii "b") []) (ascii "b")).isSome = true ∧
    ascii "b" ∈ (big_archive big_payload).map Record.name ∧
    append_files lim 2 (some (archive_bytes (big_archive big_payload)))
        (FS.empty.write (ascii "b") []) [ascii "b"]
      = some (EXIT_SUCCESS,
          archive_bytes (big_archive big_payload) ++ record_bytes ⟨ascii "b", []⟩) ∧
    append_files lim 2 (some (archive_bytes (big_archive big_payload)))
        (FS.empty.write (ascii "b") []) [ascii "b"]
      ≠ some (EXIT_FAILURE, archive_bytes (big_archive big_payload)) :=
  @append_files_big_archive lim big_payload big_payload_length

/-- Claim C8, evaluated where it fails.  When the first name of the batch has
no source file, `append_files` leaves the loop with `rc` still 0: it returns
`EXIT_SUCCESS`, not `EXIT_FAILURE`, and appends nothing, neither for that name
nor for the names after it. -/
theorem append_files_missing_source (lim : Nat) (fuel : Nat) :
    append_files lim fuel (some []) (FS.empty.write (ascii "there") (ascii "hi"))
        [ascii "missing", ascii "there"] = some (EXIT_SUCCESS, []) ∧
    append_files lim (fuel + 2) (some []) (FS.empty.write (ascii "there") (ascii "hi"))
        [ascii "there", ascii "missing"]
      = some (EXIT_SUCCESS, archive_bytes [⟨ascii "there", ascii "hi"⟩]) ∧
    EXIT_SUCCESS ≠ EXIT_FAILURE :=
  ⟨rfl, rfl, by decide⟩

/-- Claim C9, evaluated where it fails.  In `big_archive decoy_payload` the
payload of record `b` starts at offset `2^32 + 34`, which `find_file` hands
back through its `int` result as 34; `extract_files` seeks there, into the
payload of record `a`, and goes on scanning from there, where it decodes the
bytes of that payload as a record named `c`: asked for `b, c` it returns
success and creates a file `c`, although no record of the archive is named
`c`. -/
theorem extract_files_creates_absent_name (lim : Nat) :
    WellFormed (big_archive decoy_payload) ∧ CString (ascii "b") ∧ CString (ascii "c") ∧
    ascii "c" ∉ (big_archive decoy_payload).map Record.name ∧
    ∃ dir1, extract_files lim 3 (some (archive_bytes (big_archive decoy_payload))) FS.empty
        [ascii "b", ascii "c"] = some (EXIT_SUCCESS, dir1) ∧
      dir1 (ascii "c") = some [] :=
  @extract_files_big_archive lim decoy_payload (List.replicate (2 ^ 32 - 34) 0) rfl
    decoy_payload_length

/-- Claim C10, amended: a truncated final payload is detected by `fseek` or
not at all.  The final record declares a payload size `S` larger than the
number of bytes left behind its header (`S` is not negative as a `long`, or
else so large that the offset the seek computes lies in front of the file).
When `fseek` accepts the offset `header end + S`, `list_files` prints the
record like any other and returns success, and `find_file` for a name that
does not occur returns 0, the plain not-found, with the cursor at that offset,
beyond the end of the stream; when `fseek` refuses the offset, `list_files`
returns failure and `find_file` returns -1. -/
theorem truncated_payload_scan (lim : Nat) (rs : List Record) (name tail t : List Byte)
    (S fuel : Nat)
    (hnames : ∀ r ∈ rs, CString r.name) (hname : CString name)
    (htrunc : tail.length < S)
    (hS : S < 2 ^ 63 ∨ (archive_bytes rs).length + (16 + name.length) + S < 2 ^ 64)
    (hfile : (archive_bytes rs ++ (header_bytes name S ++ tail)).length < 2 ^ 63)
    (ht : CString t) (habs : name ≠ t ∧ ∀ r ∈ rs, r.name ≠ t)
    (hfuel : rs.length + 2 ≤ fuel) :
    list_files lim fuel (some (archive_bytes rs ++ (header_bytes name S ++ tail)))
      = some (if (archive_bytes rs).length + (16 + name.length) + S ≤ lim ∧
            (archive_bytes rs).length + (16 + name.length) + S < 2 ^ 63
          then EXIT_SUCCESS else EXIT_FAILURE,
          (rs.map record_line).flatten
            ++ (name ++ ascii " of size " ++ ascii (Nat.repr S) ++ ascii "\n")) ∧
    (∃ hdr1, find_file lim fuel
        { data := archive_bytes rs ++ (header_bytes name S ++ tail), pos := 0, append := false }
        { name_len := 0, name := [], file_size := 0 } t
      = some (if (archive_bytes rs).length + (16 + name.length) + S ≤ lim ∧
            (archive_bytes rs).length + (16 + name.length) + S < 2 ^ 63
          then 0 else -1, hdr1,
          { data := archive_bytes rs ++ (header_bytes name S ++ tail),
            pos := if (archive_bytes rs).length + (16 + name.length) + S ≤ lim ∧
                (archive_bytes rs).length + (16 + name.length) + S < 2 ^ 63
              then (archive_bytes rs).length + (16 + name.length) + S
              else (archive_bytes rs).length + (16 + name.length),
            append := false })) ∧
    (archive_bytes rs ++ (header_bytes name S ++ tail)).length
      < (archive_bytes rs).length + (16 + name.length) + S :=
  truncated_payload_outcome lim rs name tail t S fuel hnames hname htrunc hS hfile ht habs hfuel

theorem truncated_payload_scan_witness :
    list_files (2 ^ 40) 3
        (some (archive_bytes [⟨ascii "a", [1]⟩] ++ (header_bytes (ascii "b") 5 ++ [7, 7])))
      = some (if (archive_bytes [⟨ascii "a", [1]⟩]).length + (16 + (ascii "b").length) + 5
              ≤ 2 ^ 40 ∧
            (archive_bytes [⟨ascii "a", [1]⟩]).length + (16 + (ascii "b").length) + 5 < 2 ^ 63
          then EXIT_SUCCESS else EXIT_FAILURE,
          ([(⟨ascii "a", [1]⟩ : Record)].map record_line).flatten
            ++ (ascii "b" ++ ascii " of size " ++ ascii (Nat.repr 5) ++ ascii "\n")) ∧
    (∃ hdr1, find_file (2 ^ 40) 3
        { data := archive_bytes [⟨ascii "a", [1]⟩] ++ (header_bytes (ascii "b") 5 ++ [7, 7]),
          pos := 0, append := false }
        { name_len := 0, name := [], file_size := 0 } (ascii "zz")
      = some (if (archive_bytes [⟨ascii "a", [1]⟩]).length + (16 + (ascii "b").length) + 5
              ≤ 2 ^ 40 ∧
            (archive_bytes [⟨ascii "a", [1]⟩]).length + (16 + (ascii "b").length) + 5 < 2 ^ 63
          then 0 else -1, hdr1,
          { data := archive_bytes [⟨ascii "a", [1]⟩] ++ (header_bytes (ascii "b") 5 ++ [7, 7]),
            pos := if (archive_bytes [⟨ascii "a", [1]⟩]).length + (16 + (ascii "b").length) + 5
                  ≤ 2 ^ 40 ∧
                (archive_bytes [⟨ascii "a", [1]⟩]).length + (16 + (ascii "b").length) + 5
                  < 2 ^ 63
              then (archive_bytes [⟨ascii "a", [1]⟩]).length + (16 + (ascii "b").length) + 5
              else (archive_bytes [⟨ascii "a", [1]⟩]).length + (16 + (ascii "b").length),
            append := false })) ∧
    (archive_bytes [⟨ascii "a", [1]⟩] ++ (header_bytes (ascii "b") 5 ++ [7, 7])).length
      < (archive_bytes [⟨ascii "a", [1]⟩]).length + (16 + (ascii "b").length) + 5 :=
  truncated_payload_scan (2 ^ 40) [⟨ascii "a", [1]⟩] (ascii "b") [7, 7] (ascii "zz") 5 3
    (by decide) (by decide) (by decide) (Or.inl (by decide)) (by decide) (by decide) (by decide)
    (by decide)

/-- Claim C10 refuted as stated.  The archive is the header of a record `a`
that declares 5 bytes of payload, followed by 2 bytes.  On every file system
that accepts the offset 22, `list_files` prints `a of size 5` and returns
success, and `find_file` for the name `zz` returns 0 with the cursor at offset
22, three bytes beyond the end of the 19 bytes. -/
theorem truncated_payload_counterexample :
    (header_bytes (ascii "a") 5 ++ [1, 2]).length = 19 ∧
    ∀ lim : Nat, 22 ≤ lim →
      list_files lim 2 (some (header_bytes (ascii "a") 5 ++ [1, 2]))
        = some (EXIT_SUCCESS, ascii "a of size 5\n") ∧
      find_file lim 2 { data := header_bytes (ascii "a") 5 ++ [1, 2], pos := 0, append := false }
          { name_len := 0, name := [], file_size := 0 } (ascii "zz")
        = some (0, { name_len := 1, name := ascii "a", file_size := 5 },
            { data := header_bytes (ascii "a") 5 ++ [1, 2], pos := 22, append := false }) := by
  refine ⟨by decide, ?_⟩
  intro lim hlim
  have hseek : fseek lim { data := header_bytes (ascii "a") 5 ++ [1, 2], pos := 17, append := false }
      (to_long 5) .SEEK_CUR
      = (0, { data := header_bytes (ascii "a") 5 ++ [1, 2], pos := 22, append := false }) :=
    fseek_cur_size _ 5 (by decide) (Or.inr (by simp only; omega))
  have hrh : read_header
      { data := header_bytes (ascii "a") 5 ++ [1, 2], pos := 0, append := false }
      { name_len := 0, name := [], file_size := 0 }
      = some (0, { name_len := 1, name := ascii "a", file_size := 5 },
          { data := header_bytes (ascii "a") 5 ++ [1, 2], pos := 17, append := false }) := by
    decide
  have hrh2 : read_header
      { data := header_bytes (ascii "a") 5 ++ [1, 2], pos := 22, append := false }
      { name_len := 1, name := ascii "a", file_size := 5 }
      = some (-1, { name_len := 1, name := ascii "a", file_size := 5 },
          { data := header_bytes (ascii "a") 5 ++ [1, 2], pos := 22, append := false }) := by
    decide
  have h01 : ¬ ((0 : Int) = -1) := by decide
  have hcmp : ¬ strcmp (ascii "a") (ascii "zz") = 0 := by decide
  have hm1 : ¬ ((-1 : Int) = 0) := by decide
  constructor
  · simp only [list_files, fopen_archive_r, Option.map_some', list_files_loop, hrh, if_true,
      hseek, h01, if_false, hrh2, hm1]
    decide
  · simp only [find_file, hrh, if_true, hcmp, if_false, hseek, h01, hrh2, hm1]

/-- Claim C11, amended: `read_header` returns the same value, -1, on a stream
with zero bytes left and on a stream that ends partway through a header;
consequently `list_files` returns success, after listing the complete
records, both on a well-formed archive and on well-formed records followed by
a proper prefix of a header. -/
theorem list_files_truncated_header (lim : Nat) (rs : List Record) (name : List Byte)
    (S k fuel : Nat)
    (hdr : header) (hwf : WellFormed rs) (hname : CString name) (hk : k < 16 + name.length)
    (hfuel : rs.length < fuel) :
    list_files lim fuel (some (archive_bytes rs ++ (header_bytes name S).take k))
      = some (EXIT_SUCCESS, listing rs) ∧
    list_files lim fuel (some (archive_bytes rs)) = some (EXIT_SUCCESS, listing rs) ∧
    (∃ f1, read_header { data := archive_bytes rs ++ (header_bytes name S).take k,
                         pos := (archive_bytes rs).length, append := false } hdr
      = some (-1, hdr, f1)) ∧
    read_header { data := archive_bytes rs, pos := (archive_bytes rs).length,
                  append := false } hdr
      = some (-1, hdr, { data := archive_bytes rs, pos := (archive_bytes rs).length,
                         append := false }) := by
  obtain ⟨j, rfl⟩ : ∃ j, fuel = (j + 1) + rs.length := ⟨fuel - rs.length - 1, by omega⟩
  have htr : ∀ (h0 : header),
      ∃ f1, read_header
        (⟨archive_bytes rs ++ (header_bytes name S).take k, (archive_bytes rs).length, false⟩ :
          FILE) h0 = some (-1, h0, f1) := fun h0 =>
    read_header_truncated _ h0 name S k hname.2 hk (by simp)
  refine ⟨?_, ?_, htr hdr, ?_⟩
  · obtain ⟨hdr1, e⟩ := @list_files_loop_over lim rs (j + 1)
      { data := archive_bytes rs ++ (header_bytes name S).take k, pos := 0, append := false }
      { name_len := 0, name := [], file_size := 0 } [] ((header_bytes name S).take k) hwf.1
      (by simp) (by simpa using hwf.2)
    simp only [list_files, fopen_archive_r, Option.map_some']
    obtain ⟨f1, h1⟩ := htr hdr1
    rw [e, list_files_loop_stop j _ hdr1 hdr1 _ (-1) f1
      (by simp only [Nat.zero_add]; exact h1) (by decide)]
    simp
  · simp only [list_files, fopen_archive_r, Option.map_some']
    rw [list_files_loop_records rs _ _ _ _ hwf.1 (by simp) (by simpa using hwf.2) hfuel]
    simp
  · rw [read_header_past_end _ _ (by simp)]

theorem list_files_truncated_header_witness :
    list_files (2 ^ 40) 2
        (some (archive_bytes [⟨ascii "a", [1]⟩] ++ (header_bytes (ascii "bc") 4).take 9))
      = some (EXIT_SUCCESS, listing [⟨ascii "a", [1]⟩]) ∧
    list_files (2 ^ 40) 2 (some (archive_bytes [⟨ascii "a", [1]⟩]))
      = some (EXIT_SUCCESS, listing [⟨ascii "a", [1]⟩]) ∧
    (∃ f1, read_header
        { data := archive_bytes [⟨ascii "a", [1]⟩] ++ (header_bytes (ascii "bc") 4).take 9,
          pos := (archive_bytes [⟨ascii "a", [1]⟩]).length, append := false }
        { name_len := 0, name := [], file_size := 0 }
      = some (-1, { name_len := 0, name := [], file_size := 0 }, f1)) ∧
    read_header { data := archive_bytes [⟨ascii "a", [1]⟩],
                  pos := (archive_bytes [⟨ascii "a", [1]⟩]).length, append := false }
        { name_len := 0, name := [], file_size := 0 }
      = some (-1, { name_len := 0, name := [], file_size := 0 },
          { data := archive_bytes [⟨ascii "a", [1]⟩],
            pos := (archive_bytes [⟨ascii "a", [1]⟩]).length, append := false }) :=
  list_files_truncated_header (2 ^ 40) [⟨ascii "a", [1]⟩] (ascii "bc") 4 9 2
    { name_len := 0, name := [], file_size := 0 } (by decide) (by decide) (by decide) (by decide)

/-- Claim C11 refuted as stated.  One complete record `a` followed by the
first 3, 9 or 12 bytes of the 18-byte header of a record `bc` (the archive
ends inside the name length, inside the name, inside the payload size):
`list_files` prints the line of `a` and returns success each time, whatever
the largest offset of the file system. -/
theorem list_files_truncated_header_counterexample :
    (header_bytes (ascii "bc") 4).length = 18 ∧ EXIT_SUCCESS ≠ EXIT_FAILURE ∧
    ∀ lim : Nat,
      list_files lim 2
          (some (archive_bytes [⟨ascii "a", [1]⟩] ++ (header_bytes (ascii "bc") 4).take 3))
        = some (EXIT_SUCCESS, ascii "a of size 1\n") ∧
      list_files lim 2
          (some (archive_bytes [⟨ascii "a", [1]⟩] ++ (header_bytes (ascii "bc") 4).take 9))
        = some (EXIT_SUCCESS, ascii "a of size 1\n") ∧
      list_files lim 2
          (some (archive_bytes [⟨ascii "a", [1]⟩] ++ (header_bytes (ascii "bc") 4).take 12))
        = some (EXIT_SUCCESS, ascii "a of size 1\n") :=
  ⟨by decide, by decide, fun _ => ⟨rfl, rfl, rfl⟩⟩

/-- Claim C12, evaluated where it fails.  The source holds 2 bytes and 5 are
asked for: after the short read every further `fread` delivers 0 bytes, the
`fwrite` of 0 bytes returns 0, `written` stays at 2 and the loop of
`read_write` goes on for ever, whatever the fuel; it does not return the
partial count 2.  The same happens on an empty source with 1 byte asked for,
and `extract_all` on an archive whose only record declares 5 bytes and holds 2
never returns either. -/
theorem read_write_short_source_never_returns (fuel : Nat) :
    read_write fuel { data := [1, 2], pos := 0, append := false }
      { data := [], pos := 0, append := false } 5 = none ∧
    read_write fuel { data := [], pos := 0, append := false }
      { data := [], pos := 0, append := false } 1 = none ∧
    extract_all fuel (some (header_bytes (ascii "a") 5 ++ [1, 2])) FS.empty = none := by
  refine ⟨read_write_loop_short fuel _ _ 5 0 (by decide),
    read_write_loop_short fuel _ _ 1 0 (by decide), ?_⟩
  cases fuel with
  | zero => rfl
  | succ k =>
    have hrh : read_header { data := header_bytes (ascii "a") 5 ++ [1, 2], pos := 0, append := false }
        { name_len := 0, name := [], file_size := 0 }
        = some (0, { name_len := 1, name := ascii "a", file_size := 5 },
            { data := header_bytes (ascii "a") 5 ++ [1, 2], pos := 17, append := false }) := by
      decide
    have hopen := fopen_w_ok FS.empty (ascii "a") (by decide)
    simp only [extract_all, fopen_archive_r, Option.map_some', extract_all_loop, hrh, if_true,
      hopen]
    rw [read_write, read_write_loop_short k _ _ 5 0 (by decide)]

/-- Claim C13 (copier exactness).  For `n < 2^31`, a source with at least `n`
bytes behind its cursor and a destination that writes at its end,
`read_write` returns `n`, leaves the source cursor `n` bytes further on and
the destination extended by exactly the next `n` bytes of the source, in
order, and no `fread` of the loop asks for more than 1024 bytes; for `n = 0`
it returns 0 and both streams are as they were. -/
theorem read_write_exact (fuel : Nat) (A B : FILE) (n : Nat) (hn : n < 2 ^ 31)
    (havail : A.pos + n ≤ A.data.length) (hB : B.append = true ∨ B.pos = B.data.length)
    (hfuel : copy_steps n ≤ fuel) :
    ∃ B1 reqs, read_write fuel A B n = some ((n : Int), { A with pos := A.pos + n }, B1) ∧
      B1.data = B.data ++ (A.data.drop A.pos).take n ∧ B1.append = B.append ∧
      read_write_traced fuel A B n 0 []
        = some (((n : Int), { A with pos := A.pos + n }, B1), reqs) ∧
      (∀ r ∈ reqs, r ≤ 1024) ∧
      (n = 0 → read_write fuel A B n = some (0, A, B)) := by
  have hxl : ((A.data.drop A.pos).take n).length = n := by
    simp only [List.length_take, List.length_drop]
    omega
  have hA : A.data.drop A.pos = (A.data.drop A.pos).take n ++ (A.data.drop A.pos).drop n :=
    (List.take_append_drop n _).symm
  obtain ⟨B1, e, hdata, hmode, hnil⟩ := read_write_loop_end fuel A B n 0
    ((A.data.drop A.pos).take n) ((A.data.drop A.pos).drop n) hA (by rw [hxl]; omega) hB
    (by rw [hxl]; exact hfuel)
  rw [hxl, to_int_of_lt n hn] at e
  have htr := read_write_traced_fst fuel A B n 0 []
  rw [e] at htr
  rcases htrv : read_write_traced fuel A B n 0 [] with _ | ⟨res, reqs⟩
  · rw [htrv] at htr; simp at htr
  · rw [htrv] at htr
    simp only [Option.map_some', Option.some.injEq] at htr
    subst htr
    refine ⟨B1, reqs, e, hdata, hmode, rfl, ?_, ?_⟩
    · have := read_write_traced_bound fuel A B n 0 [] _ reqs htrv (by simp)
      simpa [SIZEOF_BUF] using this
    · intro h0
      subst h0
      have hB1 : B1 = B := hnil (by simp)
      show read_write_loop fuel A B 0 0 = _
      rw [e, hB1]
      rfl

theorem read_write_exact_witness :
    ∃ B1 reqs, read_write 2 { data := [9, 1, 2, 3, 4], pos := 1, append := false }
          { data := [7], pos := 1, append := false } 3
        = some (((3 : Nat) : Int), { data := [9, 1, 2, 3, 4], pos := 1 + 3, append := false }, B1) ∧
      B1.data = [7] ++ (([9, 1, 2, 3, 4] : List Byte).drop 1).take 3 ∧ B1.append = false ∧
      read_write_traced 2 { data := [9, 1, 2, 3, 4], pos := 1, append := false }
          { data := [7], pos := 1, append := false } 3 0 []
        = some ((((3 : Nat) : Int), { data := [9, 1, 2, 3, 4], pos := 1 + 3, append := false }, B1),
            reqs) ∧
      (∀ r ∈ reqs, r ≤ 1024) ∧
      (3 = 0 → read_write 2 { data := [9, 1, 2, 3, 4], pos := 1, append := false }
          { data := [7], pos := 1, append := false } 3
        = some (0, { data := [9, 1, 2, 3, 4], pos := 1, append := false },
            { data := [7], pos := 1, append := false })) :=
  read_write_exact 2 { data := [9, 1, 2, 3, 4], pos := 1, append := false }
    { data := [7], pos := 1, append := false } 3 (by decide) (by decide) (Or.inr rfl) (by decide)

/-- Claim C14 (header decode undoes header encode).  When the bytes at the
cursor are the header of a C-string name of length `L` and a size `S`, as
`append_file` writes it, followed by any bytes, `read_header` returns 0 with
`name_len = L`, the name and `file_size = S`, and leaves the cursor
`2 * sizeof(size_t) + L` bytes further on, at the first byte behind the
header; and the bytes `append_file` writes for a file of that name with `S`
bytes of content are that header followed by the content. -/
theorem read_header_inverts_header (fp : FILE) (hdr : header) (name rest : List Byte) (S : Nat)
    (hname : CString name) (hS : S < 2 ^ 64)
    (h : fp.data.drop fp.pos = size_t_bytes name.length ++ name ++ size_t_bytes S ++ rest) :
    read_header fp hdr
      = some (0, { name_len := name.length, name := name, file_size := S },
          { fp with pos := fp.pos + (2 * SIZEOF_SIZE_T + name.length) }) ∧
    fp.data.drop (fp.pos + (2 * SIZEOF_SIZE_T + name.length)) = rest ∧
    (∀ (fuel : Nat) (fs : FS) (farch farch1 : FILE) (content : List Byte) (rc : Int),
      fs name = some content → content.length = S → S < 2 ^ 63 → farch.append = true →
      append_file fuel fs farch name = some (rc, farch1) →
      farch1.data
        = farch.data ++ (size_t_bytes name.length ++ name ++ size_t_bytes S ++ content)) := by
  have h1 : fp.data.drop fp.pos = header_bytes name S ++ rest := by
    rw [h, header_bytes]
  refine ⟨?_, ?_, ?_⟩
  · rw [read_header_ok fp hdr name S rest hname.2 hS h1]
    simp [SIZEOF_SIZE_T]
  · have e : fp.pos + (2 * SIZEOF_SIZE_T + name.length)
        = fp.pos + (header_bytes name S).length := by
      rw [header_bytes_length]; simp [SIZEOF_SIZE_T]
    rw [e, ← List.drop_drop, h1, List.drop_left]
  · intro fuel fs farch farch1 content rc hsrc hlen hlt hmode happ
    subst hlen
    rw [append_file_eq fuel fs farch name content hname hsrc hlt hmode] at happ
    split at happ
    · simp only [Option.some.injEq, Prod.mk.injEq] at happ
      rw [← happ.2]
      simp [record_bytes, header_bytes, List.append_assoc]
    · simp at happ

theorem read_header_inverts_header_witness :
    read_header { data := [5, 5] ++ (size_t_bytes 2 ++ ascii "ab" ++ size_t_bytes 3 ++ [9, 8, 7]),
                  pos := 2, append := false } { name_len := 0, name := [], file_size := 0 }
      = some (0, { name_len := (ascii "ab").length, name := ascii "ab", file_size := 3 },
          { data := [5, 5] ++ (size_t_bytes 2 ++ ascii "ab" ++ size_t_bytes 3 ++ [9, 8, 7]),
            pos := 2 + (2 * SIZEOF_SIZE_T + (ascii "ab").length), append := false }) ∧
    ([5, 5] ++ (size_t_bytes 2 ++ ascii "ab" ++ size_t_bytes 3 ++ [9, 8, 7])).drop
        (2 + (2 * SIZEOF_SIZE_T + (ascii "ab").length)) = [9, 8, 7] ∧
    (∀ (fuel : Nat) (fs : FS) (farch farch1 : FILE) (content : List Byte) (rc : Int),
      fs (ascii "ab") = some content → content.length = 3 → 3 < 2 ^ 63 → farch.append = true →
      append_file fuel fs farch (ascii "ab") = some (rc, farch1) →
      farch1.data
        = farch.data ++ (size_t_bytes (ascii "ab").length ++ ascii "ab" ++ size_t_bytes 3
            ++ content)) :=
  read_header_inverts_header
    { data := [5, 5] ++ (size_t_bytes 2 ++ ascii "ab" ++ size_t_bytes 3 ++ [9, 8, 7]),
      pos := 2, append := false }
    { name_len := 0, name := [], file_size := 0 } (ascii "ab") [9, 8, 7] 3
    (by decide) (by decide) (by decide)

/-- Claim C15 (`find_file` locates the first match).  On a well-formed archive
shorter than `2^31` bytes, scanned from offset 0: when some record carries the
target name, `find_file` returns the offset of the payload of the first such
record, a value above 0, with `hdr` holding that record's name and size and
the cursor at that offset; when none does, it returns 0 with the cursor at the
end of the archive; so the value is above 0 exactly when a record matched. -/
theorem find_file_locates_first (lim : Nat) (rs : List Record) (t : List Byte) (hdr : header)
    (m : Bool)
    (fuel : Nat) (hwf : WellFormed rs) (hsmall : (archive_bytes rs).length < 2 ^ 31)
    (ht : CString t) (hfuel : rs.length < fuel) :
    (∀ pre r post, rs = pre ++ r :: post → r.name = t → (∀ q ∈ pre, q.name ≠ t) →
      find_file lim fuel { data := archive_bytes rs, pos := 0, append := m } hdr t
        = some ((payload_offset pre r : Int),
            { name_len := r.name.length, name := r.name, file_size := r.payload.length },
            { data := archive_bytes rs, pos := payload_offset pre r, append := m }) ∧
      0 < payload_offset pre r ∧
      (archive_bytes rs).drop (payload_offset pre r) = r.payload ++ archive_bytes post) ∧
    ((∀ r ∈ rs, r.name ≠ t) →
      ∃ hdr1, find_file lim fuel { data := archive_bytes rs, pos := 0, append := m } hdr t
        = some (0, hdr1, { data := archive_bytes rs, pos := (archive_bytes rs).length,
                           append := m })) ∧
    (∃ rc hdr1 f1, find_file lim fuel { data := archive_bytes rs, pos := 0, append := m } hdr t
        = some (rc, hdr1, f1) ∧ (rc > 0 ↔ t ∈ rs.map Record.name)) := by
  have hc : cstr t = t := cstr_eq_self t ht.1
  have hfound : ∀ pre r post, rs = pre ++ r :: post → r.name = t → (∀ q ∈ pre, q.name ≠ t) →
      find_file lim fuel { data := archive_bytes rs, pos := 0, append := m } hdr t
        = some ((payload_offset pre r : Int),
            { name_len := r.name.length, name := r.name, file_size := r.payload.length },
            { data := archive_bytes rs, pos := payload_offset pre r, append := m }) ∧
      0 < payload_offset pre r ∧
      (archive_bytes rs).drop (payload_offset pre r) = r.payload ++ archive_bytes post := by
    intro pre r post hsplit hr hpre
    have hl := archive_bytes_split_length pre post r
    rw [← hsplit] at hl
    have hfind := @find_file_first lim rs pre post r t fuel
      { data := archive_bytes rs, pos := 0, append := m } hdr hwf.1 (by simpa using hwf.2)
      hsplit (by rw [hc]; exact hr) (by rw [hc]; exact hpre) (by simp)
      (by rw [hsplit] at hfuel; simp at hfuel; omega)
    have hoff : (0 + (archive_bytes pre).length + (16 + r.name.length) : Nat)
        = payload_offset pre r := by
      rw [payload_offset_eq]; omega
    simp only [hoff] at hfind
    rw [to_int_of_lt _ (by rw [payload_offset_eq]; omega)] at hfind
    refine ⟨by rw [hfind]; rfl, by rw [payload_offset_eq]; omega, ?_⟩
    have e : payload_offset pre r
        = (archive_bytes pre ++ header_bytes r.name r.payload.length).length := by
      rw [payload_offset_eq, List.length_append, header_bytes_length]
    rw [e, hsplit, archive_bytes_append, archive_bytes, record_bytes]
    simp only [List.append_assoc]
    rw [← List.append_assoc, List.drop_left]
  have habsent : (∀ r ∈ rs, r.name ≠ t) →
      ∃ hdr1, find_file lim fuel { data := archive_bytes rs, pos := 0, append := m } hdr t
        = some (0, hdr1, { data := archive_bytes rs, pos := (archive_bytes rs).length,
                           append := m }) := by
    intro habs
    obtain ⟨hdr1, e⟩ := find_file_absent t rs fuel
      { data := archive_bytes rs, pos := 0, append := m } hdr hwf.1 (by rw [hc]; exact habs)
      (by simp) (by simpa using hwf.2) hfuel
    exact ⟨hdr1, by rw [e]; simp⟩
  refine ⟨hfound, habsent, ?_⟩
  by_cases hmem : t ∈ rs.map Record.name
  · obtain ⟨pre, r, post, hsplit, hr, hpre⟩ := exists_first_named rs t hmem
    obtain ⟨e, hpos, _⟩ := hfound pre r post hsplit hr hpre
    exact ⟨_, _, _, e, by simp only [hmem, iff_true]; omega⟩
  · have habs : ∀ r ∈ rs, r.name ≠ t := fun r hr e => hmem (List.mem_map.mpr ⟨r, hr, e⟩)
    obtain ⟨hdr1, e⟩ := habsent habs
    exact ⟨_, _, _, e, by simp [hmem]⟩

theorem find_file_locates_first_witness :
    (∀ pre r post, [(⟨ascii "a", [1]⟩ : Record), ⟨ascii "b", [2, 3]⟩, ⟨ascii "b", []⟩]
        = pre ++ r :: post → r.name = ascii "b" → (∀ q ∈ pre, q.name ≠ ascii "b") →
      find_file (2 ^ 40) 4 { data := archive_bytes [⟨ascii "a", [1]⟩, ⟨ascii "b", [2, 3]⟩, ⟨ascii "b", []⟩],
                             pos := 0, append := false }
          { name_len := 0, name := [], file_size := 0 } (ascii "b")
        = some ((payload_offset pre r : Int),
            { name_len := r.name.length, name := r.name, file_size := r.payload.length },
            { data := archive_bytes [⟨ascii "a", [1]⟩, ⟨ascii "b", [2, 3]⟩, ⟨ascii "b", []⟩],
              pos := payload_offset pre r, append := false }) ∧
      0 < payload_offset pre r ∧
      (archive_bytes [⟨ascii "a", [1]⟩, ⟨ascii "b", [2, 3]⟩, ⟨ascii "b", []⟩]).drop
        (payload_offset pre r) = r.payload ++ archive_bytes post) ∧
    ((∀ r ∈ [(⟨ascii "a", [1]⟩ : Record), ⟨ascii "b", [2, 3]⟩, ⟨ascii "b", []⟩],
        r.name ≠ ascii "b") →
      ∃ hdr1, find_file (2 ^ 40) 4
          { data := archive_bytes [⟨ascii "a", [1]⟩, ⟨ascii "b", [2, 3]⟩, ⟨ascii "b", []⟩],
            pos := 0, append := false }
          { name_len := 0, name := [], file_size := 0 } (ascii "b")
        = some (0, hdr1,
            { data := archive_bytes [⟨ascii "a", [1]⟩, ⟨ascii "b", [2, 3]⟩, ⟨ascii "b", []⟩],
              pos := (archive_bytes
              [⟨ascii "a", [1]⟩, ⟨ascii "b", [2, 3]⟩, ⟨ascii "b", []⟩]).length,
              append := false })) ∧
    (∃ rc hdr1 f1, find_file (2 ^ 40) 4
          { data := archive_bytes [⟨ascii "a", [1]⟩, ⟨ascii "b", [2, 3]⟩, ⟨ascii "b", []⟩],
            pos := 0, append := false }
          { name_len := 0, name := [], file_size := 0 } (ascii "b")
        = some (rc, hdr1, f1) ∧
      (rc > 0 ↔ ascii "b" ∈ [(⟨ascii "a", [1]⟩ : Record), ⟨ascii "b", [2, 3]⟩,
        ⟨ascii "b", []⟩].map Record.name)) :=
  find_file_locates_first (2 ^ 40) [⟨ascii "a", [1]⟩, ⟨ascii "b", [2, 3]⟩, ⟨ascii "b", []⟩] (ascii "b")
    { name_len := 0, name := [], file_size := 0 } false 4 (by decide) (by decide) (by decide)
    (by decide)

/-- Claim C16, amended: `find_file` compares names as C strings.  A decoded
record whose name is any sequence of `name_len` bytes is a match for a target
exactly when the bytes of the name before its first NUL byte (all of them when
it has none) are the target's bytes: then `find_file` returns at this record,
otherwise it skips the payload and scans on.  For a name without NUL byte that
is equality byte for byte and in length. -/
theorem find_file_match_iff (lim fuel : Nat) (fp : FILE) (hdr : header)
    (name rest t : List Byte)
    (S : Nat) (hn : name.length + 1 < 2 ^ 64) (hS : S < 2 ^ 64) (ht : CString t)
    (h : fp.data.drop fp.pos = header_bytes name S ++ rest) :
    (cstr name = t →
      find_file lim (fuel + 1) fp hdr t
        = some (to_int ((fp.pos + (16 + name.length) : Nat) : Int),
            { name_len := name.length, name := name, file_size := S },
            { fp with pos := fp.pos + (16 + name.length) })) ∧
    (cstr name ≠ t →
      find_file lim (fuel + 1) fp hdr t
        = if (fseek lim { fp with pos := fp.pos + (16 + name.length) } (to_long S) .SEEK_CUR).1 = -1
          then some (-1, { name_len := name.length, name := name, file_size := S },
            (fseek lim { fp with pos := fp.pos + (16 + name.length) } (to_long S) .SEEK_CUR).2)
          else find_file lim fuel
            (fseek lim { fp with pos := fp.pos + (16 + name.length) } (to_long S) .SEEK_CUR).2
            { name_len := name.length, name := name, file_size := S } t) ∧
    (strcmp name t = 0 ↔ cstr name = t) ∧
    ((0 : Byte) ∉ name → (cstr name = t ↔ name = t)) := by
  have hc : cstr t = t := cstr_eq_self t ht.1
  have hcmp : strcmp name t = 0 ↔ cstr name = t := by
    rw [strcmp_eq_zero_iff, hc]
  refine ⟨?_, ?_, hcmp, ?_⟩
  · intro he
    rw [find_file, read_header_ok fp hdr name S rest hn hS h]
    simp [hcmp.mpr he, ftell]
  · intro hne
    rw [find_file, read_header_ok fp hdr name S rest hn hS h]
    have : ¬ strcmp name t = 0 := fun e => hne (hcmp.mp e)
    simp only [if_true, this, if_false]
  · intro h0
    rw [cstr_eq_self name h0]

theorem find_file_match_iff_witness :
    (cstr [97, 0, 98] = ascii "a" →
      find_file (2 ^ 40) (0 + 1) { data := header_bytes [97, 0, 98] 0 ++ [], pos := 0, append := false }
          { name_len := 0, name := [], file_size := 0 } (ascii "a")
        = some (to_int ((0 + (16 + ([97, 0, 98] : List Byte).length) : Nat) : Int),
            { name_len := ([97, 0, 98] : List Byte).length, name := [97, 0, 98], file_size := 0 },
            { data := header_bytes [97, 0, 98] 0 ++ [],
              pos := 0 + (16 + ([97, 0, 98] : List Byte).length), append := false })) ∧
    (cstr [97, 0, 98] ≠ ascii "a" →
      find_file (2 ^ 40) (0 + 1) { data := header_bytes [97, 0, 98] 0 ++ [], pos := 0, append := false }
          { name_len := 0, name := [], file_size := 0 } (ascii "a")
        = if (fseek (2 ^ 40) { data := header_bytes [97, 0, 98] 0 ++ [],
                               pos := 0 + (16 + ([97, 0, 98] : List Byte).length), append := false }
                (to_long 0) .SEEK_CUR).1 = -1
          then some (-1,
            { name_len := ([97, 0, 98] : List Byte).length, name := [97, 0, 98], file_size := 0 },
            (fseek (2 ^ 40) { data := header_bytes [97, 0, 98] 0 ++ [],
                              pos := 0 + (16 + ([97, 0, 98] : List Byte).length), append := false }
                (to_long 0) .SEEK_CUR).2)
          else find_file (2 ^ 40) 0
            (fseek (2 ^ 40) { data := header_bytes [97, 0, 98] 0 ++ [],
                              pos := 0 + (16 + ([97, 0, 98] : List Byte).length), append := false }
                (to_long 0) .SEEK_CUR).2
            { name_len := ([97, 0, 98] : List Byte).length, name := [97, 0, 98], file_size := 0 }
            (ascii "a")) ∧
    (strcmp [97, 0, 98] (ascii "a") = 0 ↔ cstr [97, 0, 98] = ascii "a") ∧
    ((0 : Byte) ∉ ([97, 0, 98] : List Byte) → (cstr [97, 0, 98] = ascii "a" ↔ [97, 0, 98] = ascii "a")) :=
  find_file_match_iff (2 ^ 40) 0 { data := header_bytes [97, 0, 98] 0 ++ [], pos := 0, append := false }
    { name_len := 0, name := [], file_size := 0 } [97, 0, 98] [] (ascii "a") 0
    (by decide) (by decide) (by decide) rfl

/-- Claim C16 refuted as stated.  The record's name is the 3 bytes `a`, NUL,
`b`; the target is the 1 byte `a`.  The two differ in length and in bytes, yet
`find_file` takes the record for a match and returns 19, the offset of its
payload. -/
theorem find_file_matches_nul_prefix :
    ([97, 0, 98] : List Byte) ≠ ascii "a" ∧
    ([97, 0, 98] : List Byte).length ≠ (ascii "a").length ∧
    ∀ lim : Nat,
      find_file lim 1 { data := record_bytes ⟨[97, 0, 98], []⟩, pos := 0, append := false }
          { name_len := 0, name := [], file_size := 0 } (ascii "a")
        = some (19, { name_len := 3, name := [97, 0, 98], file_size := 0 },
            { data := record_bytes ⟨[97, 0, 98], []⟩, pos := 19, append := false }) :=
  ⟨by decide, by decide, fun _ => rfl⟩

/-- Claim C17 (append only extends).  Whatever the archive holds and whatever
status `append_files` returns, the bytes of the archive before the call are a
prefix of its bytes after the call; and on a well-formed archive (an absent
one counts as empty) the call does return, given fuel for its loops. -/
theorem append_files_only_extends (lim fuel : Nat) (archive : Option (List Byte)) (fs : FS)
    (files : List (List Byte)) :
    (∀ rc arc1, append_files lim fuel archive fs files = some (rc, arc1) →
      archive.getD [] <+: arc1) ∧
    (∀ rs, archive.getD [] = archive_bytes rs → WellFormed rs → (∀ n ∈ files, CString n) →
      (∀ n ∈ files, ∀ c, fs n = some c → c.length < 2 ^ 63 ∧ copy_steps c.length ≤ fuel) →
      rs.length < fuel →
      ∃ rc arc1, append_files lim fuel archive fs files = some (rc, arc1)) := by
  constructor
  · intro rc arc1 h
    simp only [append_files, fopen_archive_a] at h
    split at h
    · simp at h
    · rename_i rc1 f hloop
      simp only [Option.some.injEq, Prod.mk.injEq] at h
      rw [← h.2]
      exact (append_files_loop_frame fuel fs files _ _ rc1 f rfl hloop).1
  · intro rs harc hwf hns hfs hfuel
    obtain ⟨rc, f1, e⟩ := @append_files_returns lim fuel fs rs files hwf hns hfs hfuel
    refine ⟨rc, f1.data, ?_⟩
    simp only [append_files, fopen_archive_a, harc, e]

/-- Claim C19, amended: a scan terminates when no header whose payload it
skips declares a size that is negative as a `long` (and no header it decodes
asks for a name buffer of the wrapped size 0).  Under that condition on the
headers of its own scan `list_files` returns, and so does `find_file`, within
one iteration for every 16 bytes of the archive and two more; and every
iteration that decodes a header with a size below `2^63` and skips its payload
leaves the cursor strictly beyond the position at which the header started. -/
theorem scan_terminates (lim : Nat) (arc t : List Byte) (hdr : header) (fuel : Nat)
    (hfuel : arc.length / 16 + 2 ≤ fuel) :
    (scan_sizes_ok lim none fuel { data := arc, pos := 0, append := false } = true →
      ∃ res, list_files lim fuel (some arc) = some res) ∧
    (scan_sizes_ok lim (some t) fuel { data := arc, pos := 0, append := false } = true →
      ∃ res, find_file lim fuel { data := arc, pos := 0, append := false } hdr t = some res) ∧
    (∀ (fp : FILE) (h0 hdr1 : header) (f1 f2 : FILE),
      read_header fp h0 = some (0, hdr1, f1) → hdr1.file_size < 2 ^ 63 →
      fseek lim f1 (to_long hdr1.file_size) .SEEK_CUR = (0, f2) → fp.pos < f2.pos) := by
  refine ⟨?_, ?_, ?_⟩
  · intro hs
    simp only [list_files, fopen_archive_r, Option.map_some']
    exact list_files_loop_terminates fuel _ _ _ hs (by simpa using hfuel)
  · intro hs
    exact find_file_terminates t fuel _ _ hs (by simpa using hfuel)
  · intro fp h0 hdr1 f1 f2 hrh hS hseek
    obtain ⟨_, h⟩ := @scan_step lim fp h0 hdr1 f1 hrh hS
    rcases h with e | ⟨f3, e, _, _, hp⟩
    · rw [e] at hseek
      simp at hseek
    · rw [e] at hseek
      simp only [Prod.mk.injEq, true_and] at hseek
      subst hseek
      omega

theorem scan_terminates_witness :
    (archive_bytes [⟨ascii "a", [255, 255, 255, 255, 255, 255, 255, 255, 255]⟩]).length / 16 + 2
      ≤ 3 ∧
    (∃ res, list_files (2 ^ 40) 3
        (some (archive_bytes [⟨ascii "a", [255, 255, 255, 255, 255, 255, 255, 255, 255]⟩]))
      = some res) ∧
    (∃ res, find_file (2 ^ 40) 3
        { data := archive_bytes [⟨ascii "a", [255, 255, 255, 255, 255, 255, 255, 255, 255]⟩],
          pos := 0, append := false }
        { name_len := 0, name := [], file_size := 0 } (ascii "b") = some res) ∧
    (∀ (fp : FILE) (h0 hdr1 : header) (f1 f2 : FILE),
      read_header fp h0 = some (0, hdr1, f1) → hdr1.file_size < 2 ^ 63 →
      fseek (2 ^ 40) f1 (to_long hdr1.file_size) .SEEK_CUR = (0, f2) → fp.pos < f2.pos) :=
  ⟨by decide,
    (scan_terminates (2 ^ 40)
      (archive_bytes [⟨ascii "a", [255, 255, 255, 255, 255, 255, 255, 255, 255]⟩]) (ascii "b")
      { name_len := 0, name := [], file_size := 0 } 3 (by decide)).1 (by decide),
    (scan_terminates (2 ^ 40)
      (archive_bytes [⟨ascii "a", [255, 255, 255, 255, 255, 255, 255, 255, 255]⟩]) (ascii "b")
      { name_len := 0, name := [], file_size := 0 } 3 (by decide)).2.1 (by decide),
    (scan_terminates (2 ^ 40)
      (archive_bytes [⟨ascii "a", [255, 255, 255, 255, 255, 255, 255, 255, 255]⟩]) (ascii "b")
      { name_len := 0, name := [], file_size := 0 } 3 (by decide)).2.2⟩

/-- Claim C19 refuted as stated.  On the 16 bytes of `looping_archive` the
header decoded at offset 0 has `file_size = 2^64 - 16`, which `fseek` takes as
the `long` -16: the cursor goes from 16 back to 0, the offset at which the
header started, and `list_files` and `find_file` decode the same header for
ever; no amount of fuel gives a result. -/
theorem scan_loops_on_negative_size :
    looping_archive.length = 16 ∧
    ∀ lim : Nat,
      (∀ fuel, list_files lim fuel (some looping_archive) = none) ∧
      (∀ fuel, find_file lim fuel { data := looping_archive, pos := 0, append := false }
          { name_len := 0, name := [], file_size := 0 } (ascii "x") = none) ∧
      read_header { data := looping_archive, pos := 0, append := false }
          { name_len := 0, name := [], file_size := 0 }
        = some (0, { name_len := 0, name := [], file_size := 2 ^ 64 - 16 },
            { data := looping_archive, pos := 16, append := false }) ∧
      fseek lim { data := looping_archive, pos := 16, append := false } (to_long (2 ^ 64 - 16))
          .SEEK_CUR = (0, { data := looping_archive, pos := 0, append := false }) := by
  refine ⟨by decide, fun lim => ⟨?_, fun fuel => find_file_looping fuel _,
    (@looping_archive_step lim { name_len := 0, name := [], file_size := 0 }).1,
    (@looping_archive_step lim { name_len := 0, name := [], file_size := 0 }).2⟩⟩
  intro fuel
  simp only [list_files, fopen_archive_r, Option.map_some']
  exact list_files_loop_looping fuel _ _

/-- Claim C20, evaluated where it fails.  The source file holds `2^31` bytes;
all of them are read and written to the archive behind the header, but
`read_write` returns its count as an `int`, here `-2^31`, which converted to
`size_t` is `2^64 - 2^31` and compares unequal to the size `2^31`:
`append_file` returns -1 although the record is complete. -/
theorem append_file_fails_on_complete_copy :
    (∃ farch1, append_file (2 ^ 22) (FS.empty.write (ascii "big") big_payload)
        { data := [], pos := 0, append := true } (ascii "big") = some (-1, farch1) ∧
      farch1.data = record_bytes ⟨ascii "big", big_payload⟩) ∧
    (∃ A1 B1, read_write (2 ^ 22) { data := big_payload, pos := 0, append := false }
        { data := [], pos := 0, append := false } (2 ^ 31) = some (-2147483648, A1, B1) ∧
      B1.data = big_payload ∧ A1.pos = 2 ^ 31) ∧
    to_size_t (-2147483648) ≠ 2 ^ 31 :=
  append_file_big_payload big_payload big_payload_length

end Sludge
